import Mathlib

/-!
Formal model of the brang2 compiler's code generator (src/compiler.rs)
together with the byte-cell tape machine it targets (src/interpreter.rs),
and proofs of properties of the generator and of the emitted opcode
programs.

Conventions used throughout the embedding:
* Rust `usize` values are modelled as `Nat`, `isize` values as `Int`;
  the `as` casts between them are modelled exactly (two's complement,
  64 bits) by `isizeCast` and `usizeCast`.
* `HashMap` is modelled as an association list; only lookup, insert and
  remove are used by the source, so the order of entries is irrelevant.
* A Rust function returning `Result` is modelled in the `Cmp` monad with
  `CErr.err`; a Rust panic (`todo!`, `unwrap` on `None`) is modelled with
  `CErr.fatal`.  Both short-circuit; the compiler state at the moment of
  the error is retained, as in Rust.
* Byte cells are `Nat` values kept below 256 by explicit `% 256`.
-/

namespace Brang

/-- Rust cast `usize as isize` (64-bit two's complement). -/
def isizeCast (n : Nat) : Int :=
  let m : Nat := n % 2 ^ 64
  if m < 2 ^ 63 then (m : Int) else (m : Int) - 2 ^ 64

/-- Rust cast `isize as usize` (64-bit two's complement). -/
def usizeCast (i : Int) : Nat := (i % (2 : Int) ^ 64).toNat

theorem isizeCast_eq {n : Nat} (h : n < 2 ^ 63) : isizeCast n = (n : Int) := by
  unfold isizeCast
  have h64 : n % 2 ^ 64 = n := Nat.mod_eq_of_lt (lt_trans h (by norm_num))
  simp only [h64]
  rw [if_pos h]

theorem usizeCast_ofNat {n : Nat} (h : n < 2 ^ 64) : usizeCast (n : Int) = n := by
  unfold usizeCast
  rw [Int.emod_eq_of_lt (by positivity) (by exact_mod_cast h)]
  simp

/-- The code generator state (struct `Compiler` in src/compiler.rs).
The source field `variables` is named `vars` here because `variables` is
a reserved word in Lean. -/
structure Compiler where
  ptr : Int
  stack_ptr : Int
  output : List Char
  vars : List (String × Nat)
  functions : List (String × String)
  string_literals : List (String × Nat)
deriving DecidableEq, Repr

def Compiler.new : Compiler := ⟨0, 0, [], [], [], []⟩

/-- Lookup in a hash map modelled as an association list. -/
def lookupA (l : List (String × Nat)) (k : String) : Option Nat :=
  (l.find? (fun q => q.1 == k)).map (fun q => q.2)

/-- Removal of a key from a hash map modelled as an association list. -/
def removeF (l : List (String × Nat)) (k : String) : List (String × Nat) :=
  l.filter (fun q => q.1 != k)

/-- `Compiler::emit`: append a code fragment to the output buffer. -/
def emit (src : List Char) (c : Compiler) : Compiler :=
  { c with output := c.output ++ src }

/-- `Compiler::malloc`: reserve `size` cells, return the base index. -/
def malloc (size : Nat) (c : Compiler) : Nat × Compiler :=
  (usizeCast c.stack_ptr, { c with stack_ptr := c.stack_ptr + isizeCast size })

/-- `Compiler::dealloc`. -/
def dealloc (size : Nat) (c : Compiler) : Compiler :=
  { c with stack_ptr := c.stack_ptr - isizeCast size }

/-- `Compiler::move_ptr`: adjust the simulated head and emit the moves. -/
def move_ptr (offset : Int) (c : Compiler) : Compiler :=
  emit (List.replicate offset.natAbs (if offset > 0 then '>' else '<'))
    { c with ptr := c.ptr + offset }

/-- `Compiler::set_ptr`. -/
def set_ptr (index : Nat) (c : Compiler) : Compiler :=
  move_ptr (isizeCast index - c.ptr) c

/-- `Compiler::set`: clear cell `index` and add `value`. -/
def set (index : Nat) (value : Nat) (c : Compiler) : Compiler :=
  c |> set_ptr index |> emit ['[', '-', ']'] |> emit (List.replicate value '+')

/-- `Compiler::calloc`: reserve `size` cells and emit code clearing them. -/
def calloc (size : Nat) (c : Compiler) : Nat × Compiler :=
  let p := malloc size c
  (p.1, (List.range size).foldl (fun acc i => set (p.1 + i) 0 acc) p.2)

/-- Auxiliary for `natSqrt`: the largest `r ≤ b` with `r * r ≤ n`. -/
def sqrtAux (n : Nat) : Nat → Nat
  | 0 => 0
  | r + 1 => if (r + 1) * (r + 1) ≤ n then r + 1 else sqrtAux n r

/-- The integer square root, in a structurally recursive form (shown
equal to `Nat.sqrt` below). -/
def natSqrt (n : Nat) : Nat := sqrtAux n n

theorem sqrtAux_sq_le (n : Nat) : ∀ b, sqrtAux n b * sqrtAux n b ≤ n
  | 0 => by simp [sqrtAux]
  | b + 1 => by
    rw [sqrtAux]
    by_cases h : (b + 1) * (b + 1) ≤ n
    · simpa [h]
    · simpa [h] using sqrtAux_sq_le n b

theorem le_sqrtAux (n k : Nat) (hk : k * k ≤ n) : ∀ b, k ≤ b → k ≤ sqrtAux n b
  | 0, hb => by omega
  | b + 1, hb => by
    rw [sqrtAux]
    by_cases h : (b + 1) * (b + 1) ≤ n
    · simpa [h] using hb
    · have hkb : k ≤ b := by
        rcases Nat.lt_or_ge k (b + 1) with h2 | h2
        · omega
        · exact absurd (Nat.le_trans (Nat.mul_le_mul h2 h2) hk) h
      simpa [h] using le_sqrtAux n k hk b hkb

theorem natSqrt_eq (n : Nat) : natSqrt n = Nat.sqrt n := by
  apply Nat.le_antisymm
  · exact Nat.le_sqrt.mpr (sqrtAux_sq_le n n)
  · exact le_sqrtAux n (Nat.sqrt n) (Nat.sqrt_le n) n (Nat.sqrt_le_self n)

/-- `Compiler::set_with_gcf`: set cell `index` to `value` via the
square-root factoring `value = sroot² + rest`, using cell `temp` as the
loop counter.  The source computes `sroot` as `(n as f64).sqrt().floor()
as usize`, which agrees exactly with `natSqrt` (= `Nat.sqrt`) for every `n ≤ 255`
(f64 square roots are correctly rounded and exact on this range). -/
def set_with_gcf (index temp value : Nat) (c : Compiler) : Compiler :=
  if value < 16 then set index value c
  else
    let nsqrt := natSqrt value
    let sroot := nsqrt
    let rest := value - nsqrt * nsqrt
    let c := c |> set_ptr temp |> emit (List.replicate sroot '+')
               |> emit ['[', '-'] |> set_ptr index
               |> emit (List.replicate sroot '+') |> set_ptr temp |> emit [']']
    if rest > 0 then c |> set_ptr index |> emit (List.replicate rest '+') else c

/-- `Compiler::dadd`: destructively add cell `src` into cell `dest`. -/
def dadd (src dest : Nat) (c : Compiler) : Compiler :=
  c |> set_ptr src |> emit ['[', '-'] |> set_ptr dest |> emit ['+']
    |> set_ptr src |> emit [']']

/-- `Compiler::dsub`: destructively subtract cell `src` from cell `dest`. -/
def dsub (src dest : Nat) (c : Compiler) : Compiler :=
  c |> set_ptr src |> emit ['[', '-'] |> set_ptr dest |> emit ['-']
    |> set_ptr src |> emit [']']

/-- `Compiler::move_val`. -/
def move_val (src dest : Nat) (c : Compiler) : Compiler :=
  c |> set dest 0 |> dadd src dest

/-- `Compiler::copy_val`: copy cell `src` into every cell of `dests`,
preserving `src` via a freshly allocated temporary. -/
def copy_val (src : Nat) (dests : List Nat) (c : Compiler) : Compiler :=
  let c := dests.foldl (fun acc d => set d 0 acc) c
  let p := calloc 1 c
  let tmp := p.1
  let c := p.2 |> set_ptr src |> emit ['[', '-']
  let c := dests.foldl (fun acc d => acc |> set_ptr d |> emit ['+']) c
  let c := c |> set_ptr tmp |> emit ['+'] |> set_ptr src |> emit [']']
  let c := move_val tmp src c
  dealloc 1 c

/-- `Compiler::add`: non-destructive add. -/
def add (src dest : Nat) (c : Compiler) : Compiler :=
  let p := calloc 1 c
  let tmp := p.1
  let c := copy_val src [tmp] p.2
  let c := dadd tmp dest c
  dealloc 1 c

/-- `Compiler::sub`: non-destructive subtract. -/
def sub (src dest : Nat) (c : Compiler) : Compiler :=
  let p := calloc 1 c
  let tmp := p.1
  let c := copy_val src [tmp] p.2
  let c := dsub tmp dest c
  dealloc 1 c

/-- `Compiler::mul`: multiply cell `dest` by cell `src` in place. -/
def mul (src dest : Nat) (c : Compiler) : Compiler :=
  let p := calloc 1 c
  let count := p.1
  let c := copy_val dest [count] p.2
  let c := set dest 0 c
  let c := c |> set_ptr count |> emit ['[', '-']
  let c := add src dest c
  let c := c |> set_ptr count |> emit [']']
  dealloc 1 c

/-- Byte sequence of a string.  The surface-language string literals in
this development are ASCII, for which the UTF-8 bytes used by the source
(`string.bytes()`) coincide with the character codes. -/
def strBytes (s : String) : List Nat := s.data.map (fun ch => ch.toNat % 256)

/-- Loop body of `Compiler::write_str`: lay the bytes out from `index`,
each byte using the next cell as the factoring temporary. -/
def writeBytes (index : Nat) (bytes : List Nat) (c : Compiler) : Compiler :=
  match bytes with
  | [] => c
  | b :: rest => writeBytes (index + 1) rest (set_with_gcf index (index + 1) b c)

/-- `Compiler::write_str`. -/
def write_str (index : Nat) (s : String) (c : Compiler) : Compiler :=
  set (index + (strBytes s).length) 0 (writeBytes index (strBytes s) c)

/-- `Compiler::print_str_at`: emit the print loop for the string literal
recorded at `index`, if any, and advance the simulated head past it. -/
def print_str_at (index : Nat) (c : Compiler) : Compiler :=
  match c.string_literals.find? (fun q => q.2 == index) with
  | some q =>
      let len : Nat := (strBytes q.1).length
      let c := c |> set_ptr index |> emit ['[', '.', '>', ']']
      { c with ptr := c.ptr + (len : Int) }
  | none => c

/-- `Compiler::add_string_literal` (always returns `Ok` in the source). -/
def add_string_literal (s : String) (c : Compiler) : Nat × Compiler :=
  let p := malloc ((strBytes s).length + 1) c
  let index := p.1
  let c := write_str index s p.2
  (index, { c with string_literals := (s, index) :: c.string_literals })

/-- Failure modes of the generator: `err` models a `Result::Err` value,
`fatal` models a Rust panic (`todo!`, or `unwrap` on `None`). -/
inductive CErr where
  | err (msg : String)
  | fatal (msg : String)
deriving DecidableEq, Repr

/-- State-and-error monad for the fallible parts of the generator.  The
compiler state at the moment of a failure is retained, as in Rust, where
a method that returns `Err` has still mutated `self`. -/
def Cmp (α : Type) : Type := Compiler → Except CErr α × Compiler

instance : Monad Cmp where
  pure a := fun c => (Except.ok a, c)
  bind x f := fun c =>
    match x c with
    | (Except.ok a, c1) => f a c1
    | (Except.error e, c1) => (Except.error e, c1)

/-- Lift an infallible state transformer into `Cmp`. -/
def liftC (f : Compiler → Compiler) : Cmp Unit := fun c => (Except.ok (), f c)

/-- Lift an infallible state transformer returning a value into `Cmp`. -/
def liftV {α : Type} (f : Compiler → α × Compiler) : Cmp α := fun c =>
  let p := f c
  (Except.ok p.1, p.2)

def throwErr {α : Type} (msg : String) : Cmp α := fun c =>
  (Except.error (CErr.err msg), c)

def throwFatal {α : Type} (msg : String) : Cmp α := fun c =>
  (Except.error (CErr.fatal msg), c)

def getC : Cmp Compiler := fun c => (Except.ok c, c)

/-- `Compiler::alloc_var`: always allocates and inserts; reports an error
afterwards when the name was already bound. -/
def alloc_var (name : String) : Cmp Nat := fun c =>
  let p := calloc 1 c
  let index := p.1
  let old := lookupA p.2.vars name
  let c2 := { p.2 with vars := (name, index) :: removeF p.2.vars name }
  match old with
  | some _ => (Except.error (CErr.err ("Variable " ++ name ++ " is already defined")), c2)
  | none => (Except.ok index, c2)

/-- `Compiler::dealloc_var`: note that the source passes the removed
cell index, not 1, to `dealloc`. -/
def dealloc_var (name : String) : Cmp Unit := fun c =>
  match lookupA c.vars name with
  | none => (Except.error (CErr.fatal "called Option::unwrap on a None value"), c)
  | some index => (Except.ok (), dealloc index { c with vars := removeF c.vars name })

/-- `Compiler::div` is `todo!("Division is not yet supported")` — a panic. -/
def div (_src _dest : Nat) : Cmp Unit :=
  throwFatal "not yet implemented: Division is not yet supported"

def modulo (_src _dest : Nat) : Cmp Unit :=
  throwFatal "not yet implemented: Modulo is not yet supported"

def eq (_src _dest : Nat) : Cmp Unit :=
  throwFatal "not yet implemented: Equality is not yet supported"

def neq (_src _dest : Nat) : Cmp Unit :=
  throwFatal "not yet implemented: Inequality is not yet supported"

def lt (_src _dest : Nat) : Cmp Unit :=
  throwFatal "not yet implemented: Less than is not yet supported"

def leq (_src _dest : Nat) : Cmp Unit :=
  throwFatal "not yet implemented: Less than or equal is not yet supported"

def gt (_src _dest : Nat) : Cmp Unit :=
  throwFatal "not yet implemented: Greater than is not yet supported"

def geq (_src _dest : Nat) : Cmp Unit :=
  throwFatal "not yet implemented: Greater than or equal is not yet supported"

def andOp (_src _dest : Nat) : Cmp Unit :=
  throwFatal "not yet implemented: Logical and is not yet supported"

def orOp (_src _dest : Nat) : Cmp Unit :=
  throwFatal "not yet implemented: Logical or is not yet supported"

/-- `Compiler::call`. -/
def call (callee : String) (_args : List Unit) : Cmp Unit := fun c =>
  match c.functions.find? (fun q => q.1 == callee) with
  | some _ => (Except.error (CErr.fatal "not yet implemented: Function calls are not yet supported"), c)
  | none => (Except.error (CErr.err ("Function " ++ callee ++ " is not defined")), c)

/-- Unary operators of the surface AST (src/parser.rs). -/
inductive UnaryOp where
  | neg
  | bnot
deriving DecidableEq, Repr

/-- Binary operators of the surface AST (src/parser.rs). -/
inductive BinaryOp where
  | addB | subB | mulB | divB | modB
  | eqB | neqB | ltB | leqB | gtB | geqB | andB | orB
deriving DecidableEq, Repr

/-- Expressions of the surface AST (src/parser.rs).  The code generator
matches a `FunctionCall` variant whose callee is a plain name, so the
call constructor carries a `String` callee as the generator expects. -/
inductive Expr where
  | unary (op : UnaryOp) (rhs : Expr)
  | binary (lhs : Expr) (op : BinaryOp) (rhs : Expr)
  | number (n : Nat)
  | strE (s : String)
  | identifier (name : String)
  | callE (callee : String) (args : List Expr)
deriving Repr

/-- Statements of the surface AST (src/parser.rs). -/
inductive Statement where
  | functionDefinition (name : String) (params : List String) (body : Statement)
  | variableDefinition (name : String) (initializer : Option Expr)
  | assignment (name : String) (value : Expr)
  | ret (e : Option Expr)
  | print (e : Expr)
  | block (stmts : List Statement)
  | ifS (condition : Expr) (then_branch : Statement) (else_branch : Option Statement)
  | whileS (condition : Expr) (body : Statement)
deriving Repr

/-- `Compiler::evaluate_expression`: lower `expr`, writing its value into
cell `dest` (which the caller has arranged to hold 0 at run time). -/
def evaluate_expression : Expr → Nat → Cmp Nat
  | Expr.unary _ _, _dest => throwFatal "not yet implemented"
  | Expr.binary lhs_expr op rhs_expr, dest => do
      let lhs ← liftV (calloc 1)
      let rhs ← liftV (calloc 1)
      _ ← evaluate_expression lhs_expr lhs
      _ ← evaluate_expression rhs_expr rhs
      liftC (dadd lhs dest)
      (match op with
       | BinaryOp.addB => liftC (dadd rhs dest)
       | BinaryOp.subB => liftC (dsub rhs dest)
       | BinaryOp.mulB => liftC (mul rhs dest)
       | BinaryOp.divB => div rhs dest
       | BinaryOp.modB => modulo rhs dest
       | BinaryOp.eqB => eq rhs dest
       | BinaryOp.neqB => neq rhs dest
       | BinaryOp.ltB => lt rhs dest
       | BinaryOp.leqB => leq rhs dest
       | BinaryOp.gtB => gt rhs dest
       | BinaryOp.geqB => geq rhs dest
       | BinaryOp.andB => andOp rhs dest
       | BinaryOp.orB => orOp rhs dest)
      liftC (dealloc 2)
      pure dest
  | Expr.number n, dest => do
      liftC (set dest n)
      pure dest
  | Expr.strE _, _dest => throwFatal "not yet implemented: Strings are not yet supported"
  | Expr.identifier name, dest => do
      let c ← getC
      match lookupA c.vars name with
      | some index => do
          liftC (copy_val index [dest])
          pure dest
      | none => throwErr ("Variable " ++ name ++ " is not defined")
  | Expr.callE callee _args, dest => do
      call callee []
      pure dest

/-- `Compiler::variable_definition`. -/
def variable_definition (name : String) (initializer : Option Expr) : Cmp Unit := do
  let index ← alloc_var name
  match initializer with
  | some init => do
      let expr_index ← liftV (calloc 1)
      _ ← evaluate_expression init expr_index
      liftC (move_val expr_index index)
      liftC (dealloc 1)
  | none => pure ()

/-- `Compiler::assignment`. -/
def assignment (name : String) (value : Expr) : Cmp Unit := do
  let c ← getC
  match lookupA c.vars name with
  | none => throwErr ("Variable " ++ name ++ " is not defined")
  | some var => do
      let expr ← liftV (calloc 1)
      let expr ← evaluate_expression value expr
      liftC (move_val expr var)
      liftC (dealloc 1)

/-- The string-literal collection pass at the head of `Compiler::compile`.
It inspects only the top level of each statement. -/
def literalPass : List Statement → Cmp Unit
  | [] => pure ()
  | stmt :: rest => do
      (match stmt with
       | Statement.variableDefinition _ (some (Expr.strE s)) => do
           let c ← getC
           match lookupA c.string_literals s with
           | none => do
               _ ← liftV (add_string_literal s)
               pure ()
           | some _ => pure ()
       | Statement.variableDefinition _ _ => pure ()
       | Statement.assignment _ (Expr.strE s) => do
           let c ← getC
           match lookupA c.string_literals s with
           | none => do
               _ ← liftV (add_string_literal s)
               pure ()
           | some _ => pure ()
       | Statement.assignment _ _ => pure ()
       | Statement.ret _ => throwFatal "not yet implemented: Return statements not implemented"
       | Statement.print (Expr.strE s) => do
           let c ← getC
           match lookupA c.string_literals s with
           | none => do
               _ ← liftV (add_string_literal s)
               pure ()
           | some _ => pure ()
       | Statement.print _ => pure ()
       | _ => pure ())
      literalPass rest

/-- Variable names directly defined by the statements of a block
(the `varnames` collection loop in `Compiler::block`). -/
def blockVarNames (stmts : List Statement) : List String :=
  stmts.filterMap (fun s =>
    match s with
    | Statement.variableDefinition name _ => some name
    | _ => none)

/-- The deallocation sweep at the end of `Compiler::block`. -/
def deallocVarList : List String → Cmp Unit
  | [] => pure ()
  | name :: rest => do
      dealloc_var name
      deallocVarList rest

mutual

/-- `Compiler::compile`: literal-collection pass, then lower each statement. -/
def compileF (stmts : List Statement) : Cmp Unit := do
  literalPass stmts
  evalList stmts
termination_by (sizeOf stmts, 1)

/-- The statement loop of `Compiler::compile`. -/
def evalList : List Statement → Cmp Unit
  | [] => pure ()
  | s :: rest => do
      evaluate_statement s
      evalList rest
termination_by l => (sizeOf l, 0)

/-- `Compiler::evaluate_statement`. -/
def evaluate_statement : Statement → Cmp Unit
  | Statement.functionDefinition _ _ _ =>
      throwFatal "not yet implemented: Function declarations are not yet supported"
  | Statement.variableDefinition name init => variable_definition name init
  | Statement.assignment name value => assignment name value
  | Statement.ret _ => throwFatal "not yet implemented: Return statements are not yet supported"
  | Statement.print e =>
      match e with
      | Expr.strE s => do
          let c ← getC
          match lookupA c.string_literals s with
          | some index => liftC (print_str_at index)
          | none => throwFatal "called Option::unwrap on a None value"
      | _ => throwFatal "not yet implemented: Print statements that doesn't use string literals are not yet supported"
  | Statement.block stmts => blockF stmts
  | Statement.ifS c t e => if_statement c t e
  | Statement.whileS _ _ => throwFatal "not yet implemented: While statements are not yet supported"
termination_by s => (sizeOf s, 3)

/-- `Compiler::block`. -/
def blockF (stmts : List Statement) : Cmp Unit := do
  compileF stmts
  deallocVarList (blockVarNames stmts)
termination_by (sizeOf stmts, 2)

/-- `Compiler::if_statement`: the `[[-] … -]+[ … ]` lowering, reusing the
condition cell. -/
def if_statement (condition : Expr) (then_branch : Statement)
    (else_branch : Option Statement) : Cmp Unit := do
  let condition_index ← liftV (calloc 1)
  let cond ← evaluate_expression condition condition_index
  liftC (set_ptr cond)
  liftC (emit ['[', '[', '-', ']'])
  evaluate_statement then_branch
  liftC (set_ptr cond)
  match else_branch with
  | some branch => do
      liftC (emit ['-', ']', '+', '['])
      evaluate_statement branch
      liftC (emit [']'])
  | none => liftC (emit [']'])
termination_by (sizeOf then_branch + sizeOf else_branch, 4)
decreasing_by all_goals (simp_wf; omega)

end

/-- Whole-program compilation from an already-parsed statement list
(the body of `pub fn compile` after tokenizing and parsing, which the
specification treats as external collaborators). -/
def compileAst (stmts : List Statement) : Except CErr Unit × Compiler :=
  compileF stmts Compiler.new

/-!
### The byte-cell tape machine

The abstract machine of the emitted language: a rightward-infinite tape
of wrapping byte cells, a head, and an output stream, per the semantics
realized by src/interpreter.rs and src/brainfuck.rs (moving left of
cell 0 is a failure there, and `,` is unused by the generator).
-/

/-- Pointwise update of a tape. -/
def upd (t : Nat → Nat) (i v : Nat) : Nat → Nat := fun j => if j = i then v else t j

@[simp] theorem upd_same (t : Nat → Nat) (i v : Nat) : upd t i v i = v := by
  simp [upd]

theorem upd_ne (t : Nat → Nat) {i j : Nat} (v : Nat) (h : j ≠ i) :
    upd t i v j = t j := by
  simp [upd, h]

theorem upd_upd_same (t : Nat → Nat) (i v w : Nat) :
    upd (upd t i v) i w = upd t i w := by
  funext j
  by_cases h : j = i <;> simp [upd, h]

theorem upd_self (t : Nat → Nat) (i : Nat) : upd t i (t i) = t := by
  funext j
  by_cases h : j = i <;> simp [upd, h]

/-- Machine state: tape, head position, bytes written so far. -/
structure Mach where
  tape : Nat → Nat
  head : Nat
  out : List Nat

/-- The currently selected cell. -/
def Mach.cur (m : Mach) : Nat := m.tape m.head

/-- Write the currently selected cell. -/
def Mach.setCur (m : Mach) (v : Nat) : Mach := { m with tape := upd m.tape m.head v }

/-- Find the `]` matching an already-consumed `[`: given the remaining
code and the current nesting depth, return the loop body (the code up to
the matching `]`) and the code after it. -/
def jump (depth : Nat) : List Char → Option (List Char × List Char)
  | [] => none
  | c :: rest =>
    if c = ']' ∧ depth = 0 then some ([], rest)
    else
      match jump (if c = ']' then depth - 1 else if c = '[' then depth + 1 else depth) rest with
      | none => none
      | some q => some (c :: q.1, q.2)

theorem jump_decomp : ∀ (cs : List Char) (d : Nat) (b a : List Char),
    jump d cs = some (b, a) → cs = b ++ ']' :: a := by
  intro cs
  induction cs with
  | nil => intro d b a h; simp [jump] at h
  | cons c rest ih =>
    intro d b a h
    rw [jump] at h
    by_cases hc : c = ']' ∧ d = 0
    · rw [if_pos hc] at h
      obtain ⟨hb, ha⟩ := Prod.mk.injEq .. ▸ Option.some.injEq .. ▸ h
      subst hb; subst ha
      simp [hc.1]
    · rw [if_neg hc] at h
      rcases hq : jump (if c = ']' then d - 1 else if c = '[' then d + 1 else d) rest with _ | q
      · rw [hq] at h; exact absurd h (by simp)
      · rw [hq] at h
        obtain ⟨hb, ha⟩ := Prod.mk.injEq .. ▸ Option.some.injEq .. ▸ h
        subst hb; subst ha
        have := ih _ _ _ hq
        simp [this]

theorem jump_length {cs : List Char} {d : Nat} {b a : List Char}
    (h : jump d cs = some (b, a)) : cs.length = b.length + 1 + a.length := by
  have := jump_decomp cs d b a h
  subst this
  simp
  omega

/-- Execution of a code fragment.  `fuel` bounds the number of executed
steps; `none` means fuel ran out, a move left of cell 0, an unmatched
bracket, or a read (`,`, unused by the generator).  On `[` the matching
bracket is located with `jump`; a nonzero current cell runs the loop body
and then re-executes the loop from its head, as the interpreter does. -/
def bfRun : Nat → List Char → Mach → Option Mach
  | _, [], m => some m
  | 0, _ :: _, _ => none
  | f + 1, c :: rest, m =>
    if c = '>' then bfRun f rest { m with head := m.head + 1 }
    else if c = '<' then
      if m.head = 0 then none else bfRun f rest { m with head := m.head - 1 }
    else if c = '+' then bfRun f rest (m.setCur ((m.cur + 1) % 256))
    else if c = '-' then bfRun f rest (m.setCur ((m.cur + 255) % 256))
    else if c = '.' then bfRun f rest { m with out := m.out ++ [m.cur] }
    else if c = '[' then
      match jump 0 rest with
      | none => none
      | some q =>
        if m.cur = 0 then bfRun f q.2 m
        else
          match bfRun f q.1 m with
          | none => none
          | some m2 => bfRun f (c :: rest) m2
    else if c = ']' then none
    else if c = ',' then none
    else bfRun f rest m

theorem bfRun_nil (fuel : Nat) (m : Mach) : bfRun fuel [] m = some m := by
  cases fuel <;> simp [bfRun]

theorem bfRun_zero_cons (c : Char) (rest : List Char) (m : Mach) :
    bfRun 0 (c :: rest) m = none := by
  simp [bfRun]

theorem bfRun_gt (f : Nat) (rest : List Char) (m : Mach) :
    bfRun (f + 1) ('>' :: rest) m = bfRun f rest { m with head := m.head + 1 } := by
  simp [bfRun]

theorem bfRun_lt0 (f : Nat) (rest : List Char) (m : Mach) (h : m.head = 0) :
    bfRun (f + 1) ('<' :: rest) m = none := by
  simp [bfRun, h]

theorem bfRun_lt (f : Nat) (rest : List Char) (m : Mach) (h : m.head ≠ 0) :
    bfRun (f + 1) ('<' :: rest) m = bfRun f rest { m with head := m.head - 1 } := by
  simp [bfRun, h]

theorem bfRun_plus (f : Nat) (rest : List Char) (m : Mach) :
    bfRun (f + 1) ('+' :: rest) m = bfRun f rest (m.setCur ((m.cur + 1) % 256)) := by
  simp [bfRun]

theorem bfRun_minus (f : Nat) (rest : List Char) (m : Mach) :
    bfRun (f + 1) ('-' :: rest) m = bfRun f rest (m.setCur ((m.cur + 255) % 256)) := by
  simp [bfRun]

theorem bfRun_dot (f : Nat) (rest : List Char) (m : Mach) :
    bfRun (f + 1) ('.' :: rest) m = bfRun f rest { m with out := m.out ++ [m.cur] } := by
  simp [bfRun]

theorem bfRun_open_none (f : Nat) (rest : List Char) (m : Mach)
    (hj : jump 0 rest = none) : bfRun (f + 1) ('[' :: rest) m = none := by
  simp [bfRun, hj]

theorem bfRun_open_zero (f : Nat) (rest : List Char) (m : Mach)
    (q : List Char × List Char) (hj : jump 0 rest = some q) (hc : m.cur = 0) :
    bfRun (f + 1) ('[' :: rest) m = bfRun f q.2 m := by
  simp [bfRun, hj, hc]

theorem bfRun_open_pos (f : Nat) (rest : List Char) (m : Mach)
    (q : List Char × List Char) (hj : jump 0 rest = some q) (hc : m.cur ≠ 0) :
    bfRun (f + 1) ('[' :: rest) m =
      (match bfRun f q.1 m with
       | none => none
       | some m2 => bfRun f ('[' :: rest) m2) := by
  simp [bfRun, hj, hc]

theorem bfRun_close (f : Nat) (rest : List Char) (m : Mach) :
    bfRun (f + 1) (']' :: rest) m = none := by
  simp [bfRun]

theorem bfRun_comma (f : Nat) (rest : List Char) (m : Mach) :
    bfRun (f + 1) (',' :: rest) m = none := by
  simp [bfRun]

theorem bfRun_other (f : Nat) (c : Char) (rest : List Char) (m : Mach)
    (h1 : c ≠ '>') (h2 : c ≠ '<') (h3 : c ≠ '+') (h4 : c ≠ '-') (h5 : c ≠ '.')
    (h6 : c ≠ '[') (h7 : c ≠ ']') (h8 : c ≠ ',') :
    bfRun (f + 1) (c :: rest) m = bfRun f rest m := by
  simp [bfRun, h1, h2, h3, h4, h5, h6, h7, h8]

/-- Running with more fuel preserves successful results. -/
theorem bfRun_mono : ∀ (f : Nat) {g : Nat} (code : List Char) (m : Mach) {m2 : Mach},
    f ≤ g → bfRun f code m = some m2 → bfRun g code m = some m2 := by
  intro f
  induction f with
  | zero =>
    intro g code m m2 _ h
    cases code with
    | nil => rw [bfRun_nil] at h; rw [bfRun_nil]; exact h
    | cons c rest => rw [bfRun_zero_cons] at h; exact absurd h (by simp)
  | succ f ih =>
    intro g code m m2 hfg h
    cases code with
    | nil => rw [bfRun_nil] at h; rw [bfRun_nil]; exact h
    | cons c rest =>
      obtain ⟨g, rfl⟩ : ∃ gp, g = gp + 1 := ⟨g - 1, by omega⟩
      have hg : f ≤ g := by omega
      by_cases h1 : c = '>'
      · subst h1; rw [bfRun_gt] at h ⊢; exact ih _ _ hg h
      by_cases h2 : c = '<'
      · subst h2
        by_cases hh : m.head = 0
        · rw [bfRun_lt0 _ _ _ hh] at h; exact absurd h (by simp)
        · rw [bfRun_lt _ _ _ hh] at h ⊢; exact ih _ _ hg h
      by_cases h3 : c = '+'
      · subst h3; rw [bfRun_plus] at h ⊢; exact ih _ _ hg h
      by_cases h4 : c = '-'
      · subst h4; rw [bfRun_minus] at h ⊢; exact ih _ _ hg h
      by_cases h5 : c = '.'
      · subst h5; rw [bfRun_dot] at h ⊢; exact ih _ _ hg h
      by_cases h6 : c = '['
      · subst h6
        rcases hj : jump 0 rest with _ | q
        · rw [bfRun_open_none _ _ _ hj] at h; exact absurd h (by simp)
        · by_cases hc : m.cur = 0
          · rw [bfRun_open_zero _ _ _ _ hj hc] at h ⊢; exact ih _ _ hg h
          · rw [bfRun_open_pos _ _ _ _ hj hc] at h ⊢
            rcases hb : bfRun f q.1 m with _ | mb
            · rw [hb] at h; exact absurd h (by simp)
            · rw [hb] at h
              rw [ih _ _ hg hb]
              exact ih _ _ hg h
      by_cases h7 : c = ']'
      · subst h7; rw [bfRun_close] at h; exact absurd h (by simp)
      by_cases h8 : c = ','
      · subst h8; rw [bfRun_comma] at h; exact absurd h (by simp)
      rw [bfRun_other _ _ _ _ h1 h2 h3 h4 h5 h6 h7 h8] at h ⊢
      exact ih _ _ hg h

/-- `jump` only looks at the prefix up to the matching bracket, so it is
stable under appending code. -/
theorem jump_append : ∀ (cs : List Char) (d : Nat) (b a ex : List Char),
    jump d cs = some (b, a) → jump d (cs ++ ex) = some (b, a ++ ex) := by
  intro cs
  induction cs with
  | nil => intro d b a ex h; simp [jump] at h
  | cons c rest ih =>
    intro d b a ex h
    rw [jump] at h
    rw [List.cons_append, jump]
    by_cases hc : c = ']' ∧ d = 0
    · rw [if_pos hc] at h
      obtain ⟨hb, ha⟩ := Prod.mk.injEq .. ▸ Option.some.injEq .. ▸ h
      subst hb; subst ha
      rw [if_pos hc]
    · rw [if_neg hc] at h
      rw [if_neg hc]
      rcases hq : jump (if c = ']' then d - 1 else if c = '[' then d + 1 else d) rest with _ | q
      · rw [hq] at h; exact absurd h (by simp)
      · rw [hq] at h
        obtain ⟨hb, ha⟩ := Prod.mk.injEq .. ▸ Option.some.injEq .. ▸ h
        subst hb; subst ha
        rw [ih _ _ _ ex hq]

/-- Sequencing: a successful run of `p` followed by a successful run of
`q` is a successful run of `p ++ q`, with the fuels added. -/
theorem bfRun_seq : ∀ (f : Nat) {g : Nat} (p : List Char) {q : List Char}
    (m : Mach) {m1 m2 : Mach},
    bfRun f p m = some m1 → bfRun g q m1 = some m2 →
    bfRun (f + g) (p ++ q) m = some m2 := by
  intro f
  induction f with
  | zero =>
    intro g p q m m1 m2 hp hq
    cases p with
    | nil =>
      rw [bfRun_nil] at hp
      obtain rfl : m = m1 := by simpa using hp
      simpa using bfRun_mono g _ _ (by omega) hq
    | cons c rest => rw [bfRun_zero_cons] at hp; exact absurd hp (by simp)
  | succ f ih =>
    intro g p q m m1 m2 hp hq
    cases p with
    | nil =>
      rw [bfRun_nil] at hp
      obtain rfl : m = m1 := by simpa using hp
      exact bfRun_mono g _ _ (by omega) hq
    | cons c rest =>
      have hstep : f + 1 + g = (f + g) + 1 := by omega
      rw [hstep]
      rw [List.cons_append]
      by_cases h1 : c = '>'
      · subst h1; rw [bfRun_gt] at hp ⊢; exact ih _ _ hp hq
      by_cases h2 : c = '<'
      · subst h2
        by_cases hh : m.head = 0
        · rw [bfRun_lt0 _ _ _ hh] at hp; exact absurd hp (by simp)
        · rw [bfRun_lt _ _ _ hh] at hp ⊢; exact ih _ _ hp hq
      by_cases h3 : c = '+'
      · subst h3; rw [bfRun_plus] at hp ⊢; exact ih _ _ hp hq
      by_cases h4 : c = '-'
      · subst h4; rw [bfRun_minus] at hp ⊢; exact ih _ _ hp hq
      by_cases h5 : c = '.'
      · subst h5; rw [bfRun_dot] at hp ⊢; exact ih _ _ hp hq
      by_cases h6 : c = '['
      · subst h6
        rcases hj : jump 0 rest with _ | qq
        · rw [bfRun_open_none _ _ _ hj] at hp; exact absurd hp (by simp)
        · have hj2 : jump 0 (rest ++ q) = some (qq.1, qq.2 ++ q) :=
            jump_append rest 0 qq.1 qq.2 q (by rw [hj])
          by_cases hc : m.cur = 0
          · rw [bfRun_open_zero _ _ _ _ hj hc] at hp
            rw [bfRun_open_zero _ _ _ (qq.1, qq.2 ++ q) hj2 hc]
            exact ih _ _ hp hq
          · rw [bfRun_open_pos _ _ _ _ hj hc] at hp
            rw [bfRun_open_pos _ _ _ (qq.1, qq.2 ++ q) hj2 hc]
            rcases hb : bfRun f qq.1 m with _ | mb
            · rw [hb] at hp; exact absurd hp (by simp)
            · rw [hb] at hp
              have hb2 : bfRun (f + g) qq.1 m = some mb :=
                bfRun_mono f _ _ (by omega) hb
              rw [hb2]
              exact ih _ _ hp hq
      by_cases h7 : c = ']'
      · subst h7; rw [bfRun_close] at hp; exact absurd hp (by simp)
      by_cases h8 : c = ','
      · subst h8; rw [bfRun_comma] at hp; exact absurd hp (by simp)
      rw [bfRun_other _ _ _ _ h1 h2 h3 h4 h5 h6 h7 h8] at hp ⊢
      exact ih _ _ hp hq

/-- A code fragment `p` runs from `m` to `m2` when some amount of fuel
suffices. -/
def Runs (p : List Char) (m m2 : Mach) : Prop := ∃ f, bfRun f p m = some m2

theorem Runs_nil (m : Mach) : Runs [] m m := ⟨0, bfRun_nil 0 m⟩

theorem Runs_append {p q : List Char} {m m1 m2 : Mach}
    (hp : Runs p m m1) (hq : Runs q m1 m2) : Runs (p ++ q) m m2 := by
  obtain ⟨f, hf⟩ := hp
  obtain ⟨g, hg⟩ := hq
  exact ⟨f + g, bfRun_seq f p m hf hg⟩

/-- Execution is deterministic. -/
theorem Runs_det {p : List Char} {m m1 m2 : Mach}
    (h1 : Runs p m m1) (h2 : Runs p m m2) : m1 = m2 := by
  obtain ⟨f, hf⟩ := h1
  obtain ⟨g, hg⟩ := h2
  have hf2 := bfRun_mono f p m (Nat.le_max_left f g) hf
  have hg2 := bfRun_mono g p m (Nat.le_max_right f g) hg
  rw [hf2] at hg2
  exact (Option.some.injEq .. ▸ hg2)

/-- Bracket-balanced code fragments. -/
inductive Bal : List Char → Prop
  | nil : Bal []
  | flat (c : Char) (rest : List Char) (h1 : c ≠ '[') (h2 : c ≠ ']') (hr : Bal rest) :
      Bal (c :: rest)
  | loop (body rest : List Char) (hb : Bal body) (hr : Bal rest) :
      Bal ('[' :: body ++ ']' :: rest)

theorem Bal_append : ∀ {p q : List Char}, Bal p → Bal q → Bal (p ++ q) := by
  intro p q hp hq
  induction hp with
  | nil => simpa using hq
  | flat c rest h1 h2 _ ih => exact Bal.flat c _ h1 h2 ih
  | loop body rest hb _ ihb ihr =>
    have := Bal.loop body (rest ++ q) hb ihr
    simpa using this

theorem Bal_replicate (k : Nat) (c : Char) (h1 : c ≠ '[') (h2 : c ≠ ']') :
    Bal (List.replicate k c) := by
  induction k with
  | zero => exact Bal.nil
  | succ k ih => exact Bal.flat c _ h1 h2 ih

theorem Bal_single (c : Char) (h1 : c ≠ '[') (h2 : c ≠ ']') : Bal [c] :=
  Bal.flat c [] h1 h2 Bal.nil

/-- Scanning a balanced fragment followed by `]` from a raised depth
skips over the fragment. -/
theorem jump_shift : ∀ {body : List Char}, Bal body →
    ∀ (d : Nat) (Z b a : List Char), jump d Z = some (b, a) →
    jump (d + 1) (body ++ ']' :: Z) = some (body ++ ']' :: b, a) := by
  intro body hbal
  induction hbal with
  | nil =>
    intro d Z b a h
    rw [List.nil_append, jump]
    simp [h]
  | flat c rest h1 h2 _ ih =>
    intro d Z b a h
    rw [List.cons_append, jump]
    rw [if_neg (fun hand => absurd hand.1 h2)]
    simp only [if_neg h2, if_neg h1]
    rw [ih d Z b a h]
    rfl
  | loop body2 rest2 _ _ ihb ihr =>
    intro d Z b a h
    have step1 := ihr d Z b a h
    have step2 := ihb (d + 1) (rest2 ++ ']' :: Z) (rest2 ++ ']' :: b) a step1
    rw [List.cons_append]
    rw [jump.eq_def]
    simp only [List.append_assoc, List.cons_append] at step2 ⊢
    rw [if_neg (by simp)]
    simp [step2]

/-- Scanning a balanced fragment followed by `]` at depth 0 finds that
`]` as the matching bracket. -/
theorem jump_bal : ∀ {body : List Char}, Bal body →
    ∀ (rest : List Char), jump 0 (body ++ ']' :: rest) = some (body, rest) := by
  intro body hbal
  induction hbal with
  | nil =>
    intro rest
    rw [List.nil_append, jump]
    simp
  | flat c rest2 h1 h2 _ ih =>
    intro rest
    rw [List.cons_append, jump]
    rw [if_neg (fun hand => absurd hand.1 h2)]
    simp only [if_neg h2, if_neg h1]
    rw [ih rest]
  | loop body2 rest2 hb _ _ ihr =>
    intro rest
    rw [List.cons_append]
    rw [jump.eq_def]
    have hsh := jump_shift hb 0 (rest2 ++ ']' :: rest) rest2 rest (ihr rest)
    simp only [List.append_assoc, List.cons_append] at hsh ⊢
    rw [if_neg (by simp)]
    simp [hsh]

/-- Exiting a loop whose guard cell is zero. -/
theorem Runs_loop_exit {body : List Char} (hb : Bal body) {m : Mach} (hc : m.cur = 0) :
    Runs ('[' :: body ++ [']']) m m := by
  refine ⟨1, ?_⟩
  have hj : jump 0 (body ++ [']']) = some (body, []) := by
    have := jump_bal hb []
    simpa using this
  rw [show ('[' :: body ++ [']'] : List Char) = '[' :: (body ++ [']']) by simp]
  rw [bfRun_open_zero 0 _ _ _ hj hc]
  exact bfRun_nil 0 m

/-- One iteration of a loop whose guard cell is nonzero. -/
theorem Runs_loop_iter {body : List Char} (hb : Bal body) {m m1 m2 : Mach}
    (hc : m.cur ≠ 0) (h1 : Runs body m m1) (h2 : Runs ('[' :: body ++ [']']) m1 m2) :
    Runs ('[' :: body ++ [']']) m m2 := by
  obtain ⟨f1, hf1⟩ := h1
  obtain ⟨f2, hf2⟩ := h2
  refine ⟨max f1 f2 + 1, ?_⟩
  have hj : jump 0 (body ++ [']']) = some (body, []) := by
    have := jump_bal hb []
    simpa using this
  rw [show ('[' :: body ++ [']'] : List Char) = '[' :: (body ++ [']']) by simp] at hf2 ⊢
  rw [bfRun_open_pos _ _ _ _ hj hc]
  rw [bfRun_mono f1 _ _ (Nat.le_max_left f1 f2) hf1]
  exact bfRun_mono f2 _ _ (Nat.le_max_right f1 f2) hf2

theorem Mach.setCur_eq_self {m : Mach} (h : m.cur = 0) : m.setCur 0 = m := by
  cases m with
  | mk tape head out =>
    simp only [Mach.setCur]
    simp only [Mach.cur] at h
    rw [show (0 : Nat) = tape head from h.symm]
    rw [upd_self]

theorem Runs_single_gt (m : Mach) : Runs ['>'] m { m with head := m.head + 1 } :=
  ⟨1, by rw [bfRun_gt]; exact bfRun_nil 0 _⟩

theorem Runs_single_minus (m : Mach) : Runs ['-'] m (m.setCur ((m.cur + 255) % 256)) :=
  ⟨1, by rw [bfRun_minus]; exact bfRun_nil 0 _⟩

theorem Runs_single_plus (m : Mach) : Runs ['+'] m (m.setCur ((m.cur + 1) % 256)) :=
  ⟨1, by rw [bfRun_plus]; exact bfRun_nil 0 _⟩

/-- Running `k` copies of `>`. -/
theorem Runs_rights (k : Nat) (m : Mach) :
    Runs (List.replicate k '>') m { m with head := m.head + k } := by
  induction k generalizing m with
  | zero =>
    have : ({ m with head := m.head + 0 } : Mach) = m := by cases m; simp
    rw [this, List.replicate_zero]
    exact Runs_nil m
  | succ k ih =>
    rw [List.replicate_succ]
    obtain ⟨f, hf⟩ := ih { m with head := m.head + 1 }
    refine ⟨f + 1, ?_⟩
    rw [bfRun_gt]
    have : m.head + 1 + k = m.head + (k + 1) := by omega
    rw [this] at hf
    exact hf

/-- Running `k` copies of `<` when the head is at least `k`. -/
theorem Runs_lefts (k : Nat) (m : Mach) (h : k ≤ m.head) :
    Runs (List.replicate k '<') m { m with head := m.head - k } := by
  induction k generalizing m with
  | zero =>
    have : ({ m with head := m.head - 0 } : Mach) = m := by cases m; simp
    rw [this, List.replicate_zero]
    exact Runs_nil m
  | succ k ih =>
    rw [List.replicate_succ]
    obtain ⟨f, hf⟩ := ih { m with head := m.head - 1 } (by simp; omega)
    refine ⟨f + 1, ?_⟩
    rw [bfRun_lt _ _ _ (by omega)]
    have : m.head - 1 - k = m.head - (k + 1) := by omega
    rw [this] at hf
    exact hf

theorem Mach.setCur_cur (m : Mach) : m.setCur m.cur = m := by
  cases m with
  | mk tape head out =>
    simp only [Mach.setCur, Mach.cur]
    rw [upd_self]

theorem Mach.setCur_setCur (m : Mach) (v w : Nat) :
    (m.setCur v).setCur w = m.setCur w := by
  cases m with
  | mk tape head out =>
    simp only [Mach.setCur, Mach.cur]
    rw [upd_upd_same]

@[simp] theorem Mach.setCur_head (m : Mach) (v : Nat) : (m.setCur v).head = m.head := rfl

@[simp] theorem Mach.setCur_out (m : Mach) (v : Nat) : (m.setCur v).out = m.out := rfl

@[simp] theorem Mach.cur_setCur (m : Mach) (v : Nat) : (m.setCur v).cur = v := by
  simp [Mach.setCur, Mach.cur]

/-- Running `k` copies of `+` on a cell holding a byte. -/
theorem Runs_plusN (k : Nat) (m : Mach) (h : m.cur < 256) :
    Runs (List.replicate k '+') m (m.setCur ((m.cur + k) % 256)) := by
  induction k generalizing m with
  | zero =>
    rw [List.replicate_zero]
    have hv : (m.cur + 0) % 256 = m.cur := by omega
    rw [hv, Mach.setCur_cur]
    exact Runs_nil m
  | succ k ih =>
    rw [List.replicate_succ]
    have h1 : (m.setCur ((m.cur + 1) % 256)).cur < 256 := by
      rw [Mach.cur_setCur]
      omega
    obtain ⟨f, hf⟩ := ih (m.setCur ((m.cur + 1) % 256)) h1
    refine ⟨f + 1, ?_⟩
    rw [bfRun_plus]
    rw [Mach.cur_setCur, Mach.setCur_setCur, Nat.mod_add_mod] at hf
    have : m.cur + 1 + k = m.cur + (k + 1) := by omega
    rw [this] at hf
    exact hf

/-!
### Emitted code of the primitives

For each primitive we characterize the emitted opcode fragment and the
generator-state effect, then prove what running that fragment does on
the abstract machine.
-/

/-- The moves emitted by `set_ptr` from simulated position `p` to cell `i`. -/
def ptrCode (p : Int) (i : Nat) : List Char :=
  List.replicate (isizeCast i - p).natAbs (if isizeCast i - p > 0 then '>' else '<')

/-- The code emitted by `set i v` starting from simulated position `p`. -/
def setCode (p : Int) (i v : Nat) : List Char :=
  ptrCode p i ++ ['[', '-', ']'] ++ List.replicate v '+'

theorem set_ptr_char (i : Nat) (c : Compiler) :
    set_ptr i c = { c with ptr := isizeCast i, output := c.output ++ ptrCode c.ptr i } := by
  cases c
  simp [set_ptr, move_ptr, emit, ptrCode]

theorem set_char (i v : Nat) (c : Compiler) :
    set i v c = { c with ptr := isizeCast i, output := c.output ++ setCode c.ptr i v } := by
  cases c
  simp [set, set_ptr, move_ptr, emit, setCode, ptrCode]

theorem Bal_ptrCode (p : Int) (i : Nat) : Bal (ptrCode p i) := by
  rw [ptrCode]
  by_cases h : isizeCast i - p > 0
  · rw [if_pos h]; exact Bal_replicate _ '>' (by decide) (by decide)
  · rw [if_neg h]; exact Bal_replicate _ '<' (by decide) (by decide)

theorem mem_ptrCode {p : Int} {i : Nat} {c : Char} (h : c ∈ ptrCode p i) :
    c = '>' ∨ c = '<' := by
  rw [ptrCode] at h
  rcases List.eq_of_mem_replicate h with rfl
  by_cases hq : isizeCast i - p > 0
  · left; rw [if_pos hq]
  · right; rw [if_neg hq]

/-- Running the emitted pointer moves from the matching head position. -/
theorem Runs_ptrCode (i : Nat) (m : Mach) (hi : i < 2 ^ 63) :
    Runs (ptrCode ((m.head : Int)) i) m { m with head := i } := by
  rw [ptrCode, isizeCast_eq hi]
  by_cases h : (i : Int) - (m.head : Int) > 0
  · rw [if_pos h]
    have hlt : m.head < i := by omega
    have hn : ((i : Int) - (m.head : Int)).natAbs = i - m.head := by omega
    rw [hn]
    have := Runs_rights (i - m.head) m
    have he : m.head + (i - m.head) = i := by omega
    rw [he] at this
    exact this
  · rw [if_neg h]
    have hle : i ≤ m.head := by omega
    have hn : ((i : Int) - (m.head : Int)).natAbs = m.head - i := by omega
    rw [hn]
    have := Runs_lefts (m.head - i) m (by omega)
    have he : m.head - (m.head - i) = i := by omega
    rw [he] at this
    exact this

/-- The clear loop `[-]` zeroes the current cell. -/
theorem Runs_clear (m : Mach) (h : m.cur < 256) : Runs ['[', '-', ']'] m (m.setCur 0) := by
  generalize hn : m.cur = n
  induction n generalizing m with
  | zero =>
    rw [show (['[', '-', ']'] : List Char) = '[' :: ['-'] ++ [']'] from rfl]
    rw [show m.setCur 0 = m from hn ▸ Mach.setCur_eq_self hn]
    exact Runs_loop_exit (Bal_single '-' (by decide) (by decide)) hn
  | succ n ih =>
    rw [show (['[', '-', ']'] : List Char) = '[' :: ['-'] ++ [']'] from rfl]
    have hbody : Runs ['-'] m (m.setCur ((m.cur + 255) % 256)) := Runs_single_minus m
    have hv : (m.cur + 255) % 256 = n := by
      rw [hn]; omega
    rw [hv] at hbody
    have hcur : (m.setCur n).cur = n := Mach.cur_setCur m n
    have htail := ih (m.setCur n) (by rw [hcur]; omega) hcur
    rw [Mach.setCur_setCur] at htail
    exact Runs_loop_iter (Bal_single '-' (by decide) (by decide))
      (by rw [hn]; omega) hbody htail

/-- Running the code of `set i v`. -/
theorem Runs_set (i v : Nat) (m : Mach) (hi : i < 2 ^ 63) (hv : v < 256)
    (hcell : m.tape i < 256) :
    Runs (setCode ((m.head : Int)) i v) m ⟨upd m.tape i v, i, m.out⟩ := by
  rw [setCode]
  have h1 := Runs_ptrCode i m hi
  have h2 := Runs_clear { m with head := i } (by simpa [Mach.cur] using hcell)
  have h3 := Runs_plusN v (({ m with head := i } : Mach).setCur 0) (by simp)
  rw [Mach.setCur_setCur] at h3
  simp only [Mach.cur_setCur, Nat.zero_add] at h3
  have hfin : (({ m with head := i } : Mach).setCur (v % 256)) = ⟨upd m.tape i v, i, m.out⟩ := by
    simp [Mach.setCur, Nat.mod_eq_of_lt hv]
  rw [hfin] at h3
  exact Runs_append (Runs_append h1 h2) h3

/-- Loop body of the code emitted by `dadd`. -/
def daddBody (s d : Nat) : List Char :=
  '-' :: ptrCode (isizeCast s) d ++ '+' :: ptrCode (isizeCast d) s

/-- The code emitted by `dadd s d` starting from simulated position `p`. -/
def daddCode (p : Int) (s d : Nat) : List Char :=
  ptrCode p s ++ '[' :: (daddBody s d ++ [']'])

theorem dadd_char (s d : Nat) (c : Compiler) :
    dadd s d c = { c with ptr := isizeCast s, output := c.output ++ daddCode c.ptr s d } := by
  cases c
  simp [dadd, set_ptr, move_ptr, emit, daddCode, daddBody, ptrCode]

theorem Bal_daddBody (s d : Nat) : Bal (daddBody s d) :=
  Bal.flat '-' _ (by decide) (by decide)
    (Bal_append (Bal_ptrCode _ _)
      (Bal.flat '+' _ (by decide) (by decide) (Bal_ptrCode _ _)))

theorem Runs_dadd_loop (s d : Nat) (hsd : s ≠ d) (hs : s < 2 ^ 63) (hd : d < 2 ^ 63) :
    ∀ (n : Nat) (t : Nat → Nat) (o : List Nat), t s = n → n < 256 → t d < 256 →
    Runs ('[' :: (daddBody s d ++ [']'])) ⟨t, s, o⟩
      ⟨upd (upd t s 0) d ((t d + n) % 256), s, o⟩ := by
  intro n
  induction n with
  | zero =>
    intro t o hts _ htd
    have hfin : (⟨upd (upd t s 0) d ((t d + 0) % 256), s, o⟩ : Mach) = ⟨t, s, o⟩ := by
      have h1 : upd t s 0 = t := by rw [← hts]; exact upd_self t s
      have h2 : (t d + 0) % 256 = t d := by omega
      rw [h1, h2, upd_self]
    rw [hfin]
    exact Runs_loop_exit (Bal_daddBody s d) (by simp [Mach.cur, hts])
  | succ n ih =>
    intro t o hts hlt htd
    have hds : d ≠ s := Ne.symm hsd
    have hA : Runs ['-'] ⟨t, s, o⟩ ⟨upd t s n, s, o⟩ := by
      have h0 := Runs_single_minus ⟨t, s, o⟩
      have hv : ((⟨t, s, o⟩ : Mach).cur + 255) % 256 = n := by
        simp only [Mach.cur]
        rw [hts]
        omega
      rw [hv] at h0
      simpa [Mach.setCur] using h0
    have hB : Runs (ptrCode (isizeCast s) d) ⟨upd t s n, s, o⟩ ⟨upd t s n, d, o⟩ := by
      have h0 := Runs_ptrCode d (⟨upd t s n, s, o⟩ : Mach) hd
      simpa [isizeCast_eq hs] using h0
    have hC : Runs ['+'] ⟨upd t s n, d, o⟩
        ⟨upd (upd t s n) d ((t d + 1) % 256), d, o⟩ := by
      have h0 := Runs_single_plus (⟨upd t s n, d, o⟩ : Mach)
      have hv : ((⟨upd t s n, d, o⟩ : Mach).cur + 1) % 256 = (t d + 1) % 256 := by
        simp only [Mach.cur]
        rw [upd_ne t n hds]
      rw [hv] at h0
      simpa [Mach.setCur] using h0
    have hD : Runs (ptrCode (isizeCast d) s)
        ⟨upd (upd t s n) d ((t d + 1) % 256), d, o⟩
        ⟨upd (upd t s n) d ((t d + 1) % 256), s, o⟩ := by
      have h0 := Runs_ptrCode s (⟨upd (upd t s n) d ((t d + 1) % 256), d, o⟩ : Mach) hs
      simpa [isizeCast_eq hd] using h0
    have hbody : Runs (daddBody s d) ⟨t, s, o⟩
        ⟨upd (upd t s n) d ((t d + 1) % 256), s, o⟩ := by
      have hshape : daddBody s d =
          (['-'] ++ (ptrCode (isizeCast s) d ++ (['+'] ++ ptrCode (isizeCast d) s))) := by
        simp [daddBody]
      rw [hshape]
      exact Runs_append hA (Runs_append hB (Runs_append hC hD))
    have hIH := ih (upd (upd t s n) d ((t d + 1) % 256)) o
      (by simp [upd, hsd])
      (by omega)
      (by simp [upd]; omega)
    have htape : (⟨upd (upd (upd (upd t s n) d ((t d + 1) % 256)) s 0) d
        ((upd (upd t s n) d ((t d + 1) % 256) d + n) % 256), s, o⟩ : Mach) =
        ⟨upd (upd t s 0) d ((t d + (n + 1)) % 256), s, o⟩ := by
      congr 1
      funext j
      by_cases hj1 : j = d
      · subst hj1
        simp [upd, hds]
        omega
      · by_cases hj2 : j = s
        · subst hj2
          simp [upd, hsd]
        · simp [upd, hj1, hj2]
    rw [htape] at hIH
    refine Runs_loop_iter (Bal_daddBody s d) ?_ hbody hIH
    simp only [Mach.cur]
    rw [hts]
    omega


/-- Running the code of `dadd s d`: destructive add, head ends at `s`. -/
theorem Runs_dadd (s d : Nat) (hsd : s ≠ d) (hs : s < 2 ^ 63) (hd : d < 2 ^ 63)
    (h0 : Nat) (t : Nat → Nat) (o : List Nat) (hts : t s < 256) (htd : t d < 256) :
    Runs (daddCode ((h0 : Int)) s d) ⟨t, h0, o⟩
      ⟨upd (upd t s 0) d ((t d + t s) % 256), s, o⟩ := by
  rw [daddCode]
  have h1 := Runs_ptrCode s (⟨t, h0, o⟩ : Mach) hs
  have h2 := Runs_dadd_loop s d hsd hs hd (t s) t o rfl hts htd
  exact Runs_append h1 h2

/-- Loop body of the drain loop of `copy_val s [d]` with temporary `T`. -/
def copy1Body (s d T : Nat) : List Char :=
  '-' :: ptrCode ((s : Int)) d ++ '+' :: ptrCode ((d : Int)) T ++ '+' :: ptrCode ((T : Int)) s

/-- The code emitted by `copy_val s [d]` from position `p` with stack top `T`. -/
def copy1Code (p : Int) (s d T : Nat) : List Char :=
  setCode p d 0 ++ setCode ((d : Int)) T 0 ++ ptrCode ((T : Int)) s ++
    '[' :: (copy1Body s d T ++ [']']) ++ setCode ((s : Int)) s 0 ++
    daddCode ((s : Int)) T s

theorem isizeCast_one : isizeCast 1 = 1 := isizeCast_eq (by norm_num)

theorem range_one : List.range 1 = [0] := by decide

theorem copy_val1_char (s d T : Nat) (c : Compiler) (hsp : c.stack_ptr = ((T : Nat) : Int))
    (hs : s < 2 ^ 63) (hd : d < 2 ^ 63) (hT : T < 2 ^ 63) :
    copy_val s [d] c = { c with
      ptr := ((T : Int)),
      output := c.output ++ copy1Code c.ptr s d T } := by
  have hT64 : T < 2 ^ 64 := lt_trans hT (by norm_num)
  cases c
  simp only at hsp
  subst hsp
  simp [copy_val, calloc, malloc, dealloc, set, dadd, move_val, set_ptr, move_ptr,
    emit, copy1Code, copy1Body, setCode, daddCode, daddBody, ptrCode, range_one,
    usizeCast_ofNat hT64, isizeCast_eq hs, isizeCast_eq hd, isizeCast_eq hT, isizeCast_one]


theorem Runs_congr {p : List Char} {m A B : Mach} (h : Runs p m A) (he : A = B) :
    Runs p m B := he ▸ h

theorem Bal_copy1Body (s d T : Nat) : Bal (copy1Body s d T) := by
  have h : copy1Body s d T =
      '-' :: ((ptrCode ((s : Int)) d ++ '+' :: ptrCode ((d : Int)) T) ++
        '+' :: ptrCode ((T : Int)) s) := by
    simp [copy1Body]
  rw [h]
  exact Bal.flat _ _ (by decide) (by decide)
    (Bal_append
      (Bal_append (Bal_ptrCode _ _)
        (Bal.flat _ _ (by decide) (by decide) (Bal_ptrCode _ _)))
      (Bal.flat _ _ (by decide) (by decide) (Bal_ptrCode _ _)))

theorem Runs_copy1_loop (s d T : Nat) (hsd : s ≠ d) (hsT : s ≠ T) (hdT : d ≠ T)
    (hs : s < 2 ^ 63) (hd2 : d < 2 ^ 63) (hT2 : T < 2 ^ 63) :
    ∀ (n : Nat) (t : Nat → Nat) (o : List Nat), t s = n → n < 256 → t d < 256 → t T < 256 →
    Runs ('[' :: (copy1Body s d T ++ [']'])) ⟨t, s, o⟩
      ⟨upd (upd (upd t s 0) d ((t d + n) % 256)) T ((t T + n) % 256), s, o⟩ := by
  intro n
  induction n with
  | zero =>
    intro t o hts _ htd htT
    have hfin : (⟨upd (upd (upd t s 0) d ((t d + 0) % 256)) T ((t T + 0) % 256), s, o⟩ : Mach)
        = ⟨t, s, o⟩ := by
      have h1 : upd t s 0 = t := by rw [← hts]; exact upd_self t s
      have h2 : (t d + 0) % 256 = t d := by omega
      have h3 : (t T + 0) % 256 = t T := by omega
      rw [h1, h2, upd_self, h3, upd_self]
    rw [hfin]
    exact Runs_loop_exit (Bal_copy1Body s d T) (by simp [Mach.cur, hts])
  | succ n ih =>
    intro t o hts hlt htd htT
    have hds : d ≠ s := Ne.symm hsd
    have hTs : T ≠ s := Ne.symm hsT
    have hTd : T ≠ d := Ne.symm hdT
    have hA : Runs ['-'] ⟨t, s, o⟩ ⟨upd t s n, s, o⟩ := by
      refine Runs_congr (Runs_single_minus ⟨t, s, o⟩) ?_
      simp only [Mach.setCur, Mach.cur]
      congr 1
      funext j
      by_cases hj : j = s
      · subst hj; simp [upd, hts]; omega
      · simp [upd, hj]
    have hB : Runs (ptrCode ((s : Int)) d) ⟨upd t s n, s, o⟩ ⟨upd t s n, d, o⟩ := by
      simpa using Runs_ptrCode d (⟨upd t s n, s, o⟩ : Mach) hd2
    have hC : Runs ['+'] ⟨upd t s n, d, o⟩
        ⟨upd (upd t s n) d ((t d + 1) % 256), d, o⟩ := by
      refine Runs_congr (Runs_single_plus (⟨upd t s n, d, o⟩ : Mach)) ?_
      simp only [Mach.setCur, Mach.cur]
      congr 1
      funext j
      by_cases hj : j = d
      · subst hj; simp [upd, hds]
      · simp [upd, hj]
    have hD : Runs (ptrCode ((d : Int)) T)
        ⟨upd (upd t s n) d ((t d + 1) % 256), d, o⟩
        ⟨upd (upd t s n) d ((t d + 1) % 256), T, o⟩ := by
      simpa using Runs_ptrCode T (⟨upd (upd t s n) d ((t d + 1) % 256), d, o⟩ : Mach) hT2
    have hE : Runs ['+'] ⟨upd (upd t s n) d ((t d + 1) % 256), T, o⟩
        ⟨upd (upd (upd t s n) d ((t d + 1) % 256)) T ((t T + 1) % 256), T, o⟩ := by
      refine Runs_congr (Runs_single_plus _) ?_
      simp only [Mach.setCur, Mach.cur]
      congr 1
      funext j
      by_cases hj : j = T
      · subst hj; simp [upd, hTd, hTs]
      · simp [upd, hj]
    have hF : Runs (ptrCode ((T : Int)) s)
        ⟨upd (upd (upd t s n) d ((t d + 1) % 256)) T ((t T + 1) % 256), T, o⟩
        ⟨upd (upd (upd t s n) d ((t d + 1) % 256)) T ((t T + 1) % 256), s, o⟩ := by
      simpa using Runs_ptrCode s
        (⟨upd (upd (upd t s n) d ((t d + 1) % 256)) T ((t T + 1) % 256), T, o⟩ : Mach) hs
    have hbody : Runs (copy1Body s d T) ⟨t, s, o⟩
        ⟨upd (upd (upd t s n) d ((t d + 1) % 256)) T ((t T + 1) % 256), s, o⟩ := by
      have hshape : copy1Body s d T =
          ['-'] ++ (ptrCode ((s : Int)) d ++ (['+'] ++ (ptrCode ((d : Int)) T ++
            (['+'] ++ ptrCode ((T : Int)) s)))) := by
        simp [copy1Body]
      rw [hshape]
      exact Runs_append hA (Runs_append hB (Runs_append hC (Runs_append hD
        (Runs_append hE hF))))
    have hIH := ih (upd (upd (upd t s n) d ((t d + 1) % 256)) T ((t T + 1) % 256)) o
      (by rw [upd_ne _ _ hsT, upd_ne _ _ hsd, upd_same])
      (by omega)
      (by rw [upd_ne _ _ hdT, upd_same]; omega)
      (by rw [upd_same]; omega)
    have hIH2 := Runs_congr hIH (show _ =
        (⟨upd (upd (upd t s 0) d ((t d + (n + 1)) % 256)) T ((t T + (n + 1)) % 256), s, o⟩ : Mach)
      from by
        congr 1
        funext j
        by_cases hj1 : j = T
        · subst hj1
          simp [upd, hTd, hTs]
          omega
        · by_cases hj2 : j = d
          · subst hj2
            simp [upd, hj1, hds]
            omega
          · by_cases hj3 : j = s
            · subst hj3
              simp [upd, hj1, hj2]
            · simp [upd, hj1, hj2, hj3])
    refine Runs_loop_iter (Bal_copy1Body s d T) ?_ hbody hIH2
    simp only [Mach.cur]
    rw [hts]
    omega


/-- Running the code of `copy_val s [d]` with stack top `T`: cell `d`
receives the value of `s`, `s` is preserved, the temporary `T` ends 0,
the head ends at `T`. -/
theorem Runs_copy1 (s d T h0 : Nat) (hsd : s ≠ d) (hsT : s ≠ T) (hdT : d ≠ T)
    (hs : s < 2 ^ 63) (hd2 : d < 2 ^ 63) (hT2 : T < 2 ^ 63)
    (t : Nat → Nat) (o : List Nat) (ht : ∀ j, t j < 256) :
    Runs (copy1Code ((h0 : Int)) s d T) ⟨t, h0, o⟩
      ⟨upd (upd t d (t s)) T 0, T, o⟩ := by
  have hds : d ≠ s := Ne.symm hsd
  have hTs : T ≠ s := Ne.symm hsT
  have hTd : T ≠ d := Ne.symm hdT
  rw [copy1Code]
  simp only [List.append_assoc]
  have h1 : Runs (setCode ((h0 : Int)) d 0) ⟨t, h0, o⟩ ⟨upd t d 0, d, o⟩ :=
    Runs_set d 0 ⟨t, h0, o⟩ hd2 (by norm_num) (ht d)
  have h2 : Runs (setCode ((d : Int)) T 0) ⟨upd t d 0, d, o⟩
      ⟨upd (upd t d 0) T 0, T, o⟩ :=
    Runs_set T 0 ⟨upd t d 0, d, o⟩ hT2 (by norm_num)
      (show upd t d 0 T < 256 by rw [upd_ne _ _ hTd]; exact ht T)
  have h3 : Runs (ptrCode ((T : Int)) s) ⟨upd (upd t d 0) T 0, T, o⟩
      ⟨upd (upd t d 0) T 0, s, o⟩ := by
    simpa using Runs_ptrCode s (⟨upd (upd t d 0) T 0, T, o⟩ : Mach) hs
  have hts2 : (upd (upd t d 0) T 0) s = t s := by
    rw [upd_ne _ _ hsT, upd_ne _ _ hsd]
  have h4 := Runs_copy1_loop s d T hsd hsT hdT hs hd2 hT2 (t s)
    (upd (upd t d 0) T 0) o hts2 (ht s)
    (by rw [upd_ne _ _ hdT, upd_same]; norm_num)
    (by rw [upd_same]; norm_num)
  have h4x := Runs_congr h4 (show _ =
      (⟨upd (upd (upd t s 0) d (t s)) T (t s), s, o⟩ : Mach) from by
    congr 1
    funext j
    by_cases hj1 : j = T
    · simp [upd, hj1, hsd, hsT, hdT, hds, hTs, hTd]
      have := ht s
      omega
    · by_cases hj2 : j = d
      · simp [upd, hj1, hj2, hsd, hsT, hdT, hds, hTs, hTd]
        have := ht s
        omega
      · by_cases hj3 : j = s
        · simp [upd, hj1, hj2, hj3, hsd, hsT, hdT, hds, hTs, hTd]
        · simp [upd, hj1, hj2, hj3])
  have h5 : Runs (setCode ((s : Int)) s 0)
      ⟨upd (upd (upd t s 0) d (t s)) T (t s), s, o⟩
      ⟨upd (upd (upd (upd t s 0) d (t s)) T (t s)) s 0, s, o⟩ :=
    Runs_set s 0 ⟨upd (upd (upd t s 0) d (t s)) T (t s), s, o⟩ hs (by norm_num)
      (show upd (upd (upd t s 0) d (t s)) T (t s) s < 256 by
        rw [upd_ne _ _ hsT, upd_ne _ _ hsd, upd_same]; norm_num)
  have h6 := Runs_dadd T s (Ne.symm hsT) hT2 hs s
    (upd (upd (upd (upd t s 0) d (t s)) T (t s)) s 0) o
    (show upd (upd (upd (upd t s 0) d (t s)) T (t s)) s 0 T < 256 by
      rw [upd_ne _ _ hTs, upd_same]; exact ht s)
    (show upd (upd (upd (upd t s 0) d (t s)) T (t s)) s 0 s < 256 by
      rw [upd_same]; norm_num)
  have h6x := Runs_congr h6 (show _ =
      (⟨upd (upd t d (t s)) T 0, T, o⟩ : Mach) from by
    congr 1
    funext j
    by_cases hj1 : j = s
    · simp [upd, hj1, hsd, hsT, hdT, hds, hTs, hTd]
      have := ht s
      omega
    · by_cases hj2 : j = T
      · simp [upd, hj1, hj2, hsd, hsT, hdT, hds, hTs, hTd]
      · by_cases hj3 : j = d
        · simp [upd, hj1, hj2, hj3, hsd, hsT, hdT, hds, hTs, hTd]
        · simp [upd, hj1, hj2, hj3])
  exact Runs_append h1 (Runs_append h2 (Runs_append h3 (Runs_append h4x
    (Runs_append h5 h6x))))


/-- The code emitted by `add s dst` from position `p` with stack top `T`. -/
def addCode (p : Int) (s dst T : Nat) : List Char :=
  setCode p T 0 ++ copy1Code ((T : Int)) s T (T + 1) ++ daddCode (((T + 1 : Nat)) : Int) T dst


theorem add_char (s dst T : Nat) (c : Compiler) (hsp : c.stack_ptr = ((T : Nat) : Int))
    (hs : s < 2 ^ 63) (hd : dst < 2 ^ 63) (hT : T + 1 < 2 ^ 63) :
    add s dst c = { c with
      ptr := ((T : Int)),
      output := c.output ++ addCode c.ptr s dst T } := by
  have hT64 : T < 2 ^ 64 := by
    have : T + 1 < 2 ^ 64 := lt_trans hT (by norm_num)
    omega
  have hT63 : T < 2 ^ 63 := by omega
  have hc1 : (calloc 1 c).2.stack_ptr = (((T + 1 : Nat)) : Int) := by
    cases c
    simp only at hsp
    subst hsp
    simp [calloc, malloc, set, set_ptr, move_ptr, emit, range_one, isizeCast_one]
    try push_cast
    try ring
  have hcv := copy_val1_char s T (T + 1) (calloc 1 c).2 hc1 hs hT63 hT
  cases c
  simp only at hsp
  subst hsp
  rw [add]
  simp [calloc, malloc, set, set_ptr, move_ptr, emit, range_one, isizeCast_one,
    usizeCast_ofNat hT64, isizeCast_eq hT63] at hcv
  simp [calloc, malloc, dealloc, set, dadd, set_ptr, move_ptr, emit, range_one,
    isizeCast_one, usizeCast_ofNat hT64, isizeCast_eq hT63, isizeCast_eq hs,
    isizeCast_eq hd, isizeCast_eq hT, hcv, addCode, setCode, daddCode, daddBody, ptrCode]


/-- Running the code of `add s dst` with stack top `T`: non-destructive
add, temporaries `T` and `T+1` end 0, head ends at `T`. -/
theorem Runs_add (s dst T h0 : Nat) (hsd : s ≠ dst) (hsT : s < T) (hdT : dst < T)
    (hT : T + 1 < 2 ^ 63) (t : Nat → Nat) (o : List Nat) (ht : ∀ j, t j < 256) :
    Runs (addCode ((h0 : Int)) s dst T) ⟨t, h0, o⟩
      ⟨upd (upd (upd t dst ((t dst + t s) % 256)) T 0) (T + 1) 0, T, o⟩ := by
  have hT63 : T < 2 ^ 63 := by omega
  have hs63 : s < 2  ^ 63 := by omega
  have hd63 : dst < 2 ^ 63 := by omega
  have hsTne : s ≠ T := by omega
  have hsT1 : s ≠ T + 1 := by omega
  have hTT1 : T ≠ T + 1 := by omega
  have hTd : T ≠ dst := by omega
  have hdT1 : dst ≠ T + 1 := by omega
  rw [addCode]
  simp only [List.append_assoc]
  have h1 : Runs (setCode ((h0 : Int)) T 0) ⟨t, h0, o⟩ ⟨upd t T 0, T, o⟩ :=
    Runs_set T 0 ⟨t, h0, o⟩ hT63 (by norm_num) (ht T)
  have h2 := Runs_copy1 s T (T + 1) T hsTne hsT1 hTT1 hs63 hT63 hT
    (upd t T 0) o (by
      intro j
      by_cases hj : j = T
      · simp [upd, hj]
      · rw [upd_ne _ _ hj]; exact ht j)
  have h2x := Runs_congr h2 (show _ =
      (⟨upd (upd t T (t s)) (T + 1) 0, T + 1, o⟩ : Mach) from by
    congr 1
    funext j
    by_cases hj1 : j = T
    · simp [upd, hj1, hsTne, hTT1, Ne.symm hsTne]
    · by_cases hj2 : j = T + 1
      · simp [upd, hj1, hj2]
      · simp [upd, hj1, hj2])
  have h3 := Runs_dadd T dst hTd hT63 hd63 (T + 1)
    (upd (upd t T (t s)) (T + 1) 0) o
    (show upd (upd t T (t s)) (T + 1) 0 T < 256 by
      rw [upd_ne _ _ hTT1, upd_same]; exact ht s)
    (show upd (upd t T (t s)) (T + 1) 0 dst < 256 by
      rw [upd_ne _ _ hdT1, upd_ne _ _ (by omega : dst ≠ T)]; exact ht dst)
  have h3x := Runs_congr h3 (show _ =
      (⟨upd (upd (upd t dst ((t dst + t s) % 256)) T 0) (T + 1) 0, T, o⟩ : Mach) from by
    congr 1
    funext j
    by_cases hj1 : j = T
    · simp [upd, hj1, hTd, hTT1]
    · by_cases hj2 : j = T + 1
      · simp [upd, hj1, hj2, Ne.symm hdT1]
      · by_cases hj3 : j = dst
        · simp [upd, hj1, hj2, hj3, hTT1, hTd, Ne.symm hTd, hdT1]
        · simp [upd, hj1, hj2, hj3])
  exact Runs_append h1 (Runs_append h2x h3x)


/-- Loop body of the multiplication loop of `mul s dst` with stack top `T`. -/
def mulBody (s dst T : Nat) : List Char :=
  '-' :: addCode ((T : Int)) s dst (T + 1) ++ ptrCode (((T + 1 : Nat)) : Int) T

/-- The code emitted by `mul s dst` from position `p` with stack top `T`. -/
def mulCode (p : Int) (s dst T : Nat) : List Char :=
  setCode p T 0 ++ copy1Code ((T : Int)) dst T (T + 1) ++
    setCode (((T + 1 : Nat)) : Int) dst 0 ++ ptrCode ((dst : Int)) T ++
    '[' :: (mulBody s dst T ++ [']'])



theorem mul_char (s dst T : Nat) (c : Compiler) (hsp : c.stack_ptr = ((T : Nat) : Int))
    (hs : s < 2 ^ 63) (hd : dst < 2 ^ 63) (hT : T + 2 < 2 ^ 63) :
    mul s dst c = { c with
      ptr := ((T : Int)),
      output := c.output ++ mulCode c.ptr s dst T } := by
  have hT64 : T < 2 ^ 64 := by
    have h2 : (2 : Nat) ^ 63 < 2 ^ 64 := by norm_num
    omega
  have hT63 : T < 2 ^ 63 := by omega
  have hT163 : T + 1 < 2 ^ 63 := by omega
  have hc1 : (calloc 1 c).2.stack_ptr = (((T + 1 : Nat)) : Int) := by
    cases c
    simp only at hsp
    subst hsp
    simp [calloc, malloc, set, set_ptr, move_ptr, emit, range_one, isizeCast_one]
    try push_cast
    try ring
  have hcv := copy_val1_char dst T (T + 1) (calloc 1 c).2 hc1 hd hT63 hT163
  have hsp3 : (emit ['[', '-'] (set_ptr T (set dst 0 (copy_val dst [T]
      (calloc 1 c).2)))).stack_ptr = (((T + 1 : Nat)) : Int) := by
    rw [hcv]
    simp [set, set_ptr, move_ptr, emit, hc1]
  have hadd := add_char s dst (T + 1)
    (emit ['[', '-'] (set_ptr T (set dst 0 (copy_val dst [T] (calloc 1 c).2)))) hsp3 hs hd
    (by omega)
  rw [mul]
  rw [show (calloc 1 c).1 = T from by
    cases c
    simp only at hsp
    subst hsp
    simp [calloc, malloc, usizeCast_ofNat hT64]]
  rw [hadd, hcv]
  cases c
  simp only at hsp
  subst hsp
  simp [calloc, malloc, dealloc, set, set_ptr, move_ptr, emit, range_one, isizeCast_one,
    usizeCast_ofNat hT64, isizeCast_eq hT63, isizeCast_eq hs, isizeCast_eq hd,
    isizeCast_eq hT163, mulCode, mulBody, setCode, ptrCode]
  try push_cast
  try ring_nf
  try simp


theorem Bal_setCode (p : Int) (i v : Nat) : Bal (setCode p i v) :=
  Bal_append
    (Bal_append (Bal_ptrCode p i)
      (Bal.loop ['-'] [] (Bal_single '-' (by decide) (by decide)) Bal.nil))
    (Bal_replicate v '+' (by decide) (by decide))

theorem Bal_daddCode (p : Int) (s d : Nat) : Bal (daddCode p s d) :=
  Bal_append (Bal_ptrCode p s)
    (Bal.loop (daddBody s d) [] (Bal_daddBody s d) Bal.nil)

theorem Bal_copy1Code (p : Int) (s d T : Nat) : Bal (copy1Code p s d T) :=
  Bal_append
    (Bal_append
      (Bal_append
        (Bal_append
          (Bal_append (Bal_setCode p d 0) (Bal_setCode ((d : Int)) T 0))
          (Bal_ptrCode ((T : Int)) s))
        (Bal.loop (copy1Body s d T) [] (Bal_copy1Body s d T) Bal.nil))
      (Bal_setCode ((s : Int)) s 0))
    (Bal_daddCode ((s : Int)) T s)

theorem Bal_addCode (p : Int) (s dst T : Nat) : Bal (addCode p s dst T) :=
  Bal_append
    (Bal_append (Bal_setCode p T 0) (Bal_copy1Code ((T : Int)) s T (T + 1)))
    (Bal_daddCode (((T + 1 : Nat)) : Int) T dst)

theorem Bal_mulBody (s dst T : Nat) : Bal (mulBody s dst T) :=
  Bal.flat '-' _ (by decide) (by decide)
    (Bal_append (Bal_addCode ((T : Int)) s dst (T + 1))
      (Bal_ptrCode (((T + 1 : Nat)) : Int) T))

theorem Runs_mul_loop (s dst T : Nat) (hsd : s ≠ dst) (hsT : s < T) (hdT : dst < T)
    (hT : T + 2 < 2 ^ 63) :
    ∀ (n : Nat) (t : Nat → Nat) (o : List Nat), t T = n → (∀ j, t j < 256) →
    ∃ t2, Runs ('[' :: (mulBody s dst T ++ [']'])) ⟨t, T, o⟩ ⟨t2, T, o⟩ ∧
      t2 T = 0 ∧ t2 dst = (t dst + n * t s) % 256 ∧ t2 s = t s ∧
      (∀ j, j ≠ T → j ≠ dst → j ≠ T + 1 → j ≠ T + 2 → t2 j = t j) ∧
      (∀ j, t2 j < 256) := by
  have hTs : T ≠ s := by omega
  have hTd : T ≠ dst := by omega
  have hsTne : s ≠ T := by omega
  have hdTne : dst ≠ T := by omega
  have hdT1 : dst ≠ T + 1 := by omega
  have hdT2 : dst ≠ T + 2 := by omega
  have hsT1 : s ≠ T + 1 := by omega
  have hsT2 : s ≠ T + 2 := by omega
  have hTT1 : T ≠ T + 1 := by omega
  have hTT2 : T ≠ T + 2 := by omega
  intro n
  induction n with
  | zero =>
    intro t o htT ht
    refine ⟨t, ?_, htT, by have := ht dst; omega, rfl, fun j _ _ _ _ => rfl, ht⟩
    exact Runs_loop_exit (Bal_mulBody s dst T) (by simp [Mach.cur, htT])
  | succ n ih =>
    intro t o htT ht
    have hA : Runs ['-'] ⟨t, T, o⟩ ⟨upd t T n, T, o⟩ := by
      refine Runs_congr (Runs_single_minus ⟨t, T, o⟩) ?_
      simp only [Mach.setCur, Mach.cur]
      congr 1
      funext j
      by_cases hj : j = T
      · simp [upd, hj, htT]
        have hx := ht T
        omega
      · simp [upd, hj]
    have hB := Runs_add s dst (T + 1) T hsd (by omega) (by omega) (by omega)
      (upd t T n) o (by
        intro j
        by_cases hj : j = T
        · simp [upd, hj]
          have hx := ht T
          omega
        · rw [upd_ne _ _ hj]
          exact ht j)
    have hBx := Runs_congr hB (show _ =
        (⟨upd (upd (upd (upd t T n) dst ((t dst + t s) % 256)) (T + 1) 0) (T + 2) 0,
          T + 1, o⟩ : Mach) from by
      congr 1
      funext j
      by_cases hj1 : j = T + 1
      · simp [upd, hj1, hTT1]
      · by_cases hj2 : j = T + 2
        · simp [upd, hj1, hj2, hTT2]
          all_goals omega
        · by_cases hj3 : j = dst
          · simp [upd, hj1, hj2, hj3, hdTne, hdT1, hdT2, Ne.symm hsd, hsTne]
          · simp [upd, hj1, hj2, hj3])
    have hC : Runs (ptrCode (((T + 1 : Nat)) : Int) T)
        ⟨upd (upd (upd (upd t T n) dst ((t dst + t s) % 256)) (T + 1) 0) (T + 2) 0, T + 1, o⟩
        ⟨upd (upd (upd (upd t T n) dst ((t dst + t s) % 256)) (T + 1) 0) (T + 2) 0, T, o⟩ := by
      simpa using Runs_ptrCode T
        (⟨upd (upd (upd (upd t T n) dst ((t dst + t s) % 256)) (T + 1) 0) (T + 2) 0,
          T + 1, o⟩ : Mach) (by omega)
    have hbody : Runs (mulBody s dst T) ⟨t, T, o⟩
        ⟨upd (upd (upd (upd t T n) dst ((t dst + t s) % 256)) (T + 1) 0) (T + 2) 0, T, o⟩ := by
      have hshape : mulBody s dst T =
          ['-'] ++ (addCode ((T : Int)) s dst (T + 1) ++ ptrCode (((T + 1 : Nat)) : Int) T) := by
        simp [mulBody]
      rw [hshape]
      exact Runs_append hA (Runs_append hBx hC)
    set t1 := upd (upd (upd (upd t T n) dst ((t dst + t s) % 256)) (T + 1) 0) (T + 2) 0 with ht1
    have ht1T : t1 T = n := by
      rw [ht1]
      simp [upd, hTd, hTT1, hTT2]
    have ht1b : ∀ j, t1 j < 256 := by
      intro j
      rw [ht1]
      by_cases hj1 : j = T + 2
      · simp [upd, hj1]
      · by_cases hj2 : j = T + 1
        · simp [upd, hj1, hj2]
        · by_cases hj3 : j = dst
          · simp [upd, hj1, hj2, hj3, hdT1, hdT2]
            all_goals omega
          · by_cases hj4 : j = T
            · simp [upd, hj1, hj2, hj3, hj4, hTT1, hTT2, hTd]
              have hx := ht T
              omega
            · simp [upd, hj1, hj2, hj3, hj4]
              exact ht j
    obtain ⟨t2, hrun, h2T, h2d, h2s, h2f, h2b⟩ := ih t1 o ht1T ht1b
    refine ⟨t2, ?_, h2T, ?_, ?_, ?_, h2b⟩
    · refine Runs_loop_iter (Bal_mulBody s dst T) ?_ hbody hrun
      simp only [Mach.cur]
      rw [htT]
      omega
    · rw [h2d]
      have hd1 : t1 dst = (t dst + t s) % 256 := by
        rw [ht1]
        simp [upd, hdT1, hdT2]
      have hs1 : t1 s = t s := by
        rw [ht1]
        simp [upd, hsT1, hsT2, hsd, hsTne]
      rw [hd1, hs1, Nat.mod_add_mod]
      congr 1
      ring
    · rw [h2s]
      rw [ht1]
      simp [upd, hsT1, hsT2, hsd, hsTne]
    · intro j hj1 hj2 hj3 hj4
      rw [h2f j hj1 hj2 hj3 hj4, ht1]
      simp [upd, hj1, hj2, hj3, hj4]


/-- Running the code of `mul s dst` with stack top `T`: cell `dst` is
multiplied by cell `s` modulo 256, `s` is preserved, head ends at `T`. -/
theorem Runs_mul (s dst T h0 : Nat) (hsd : s ≠ dst) (hsT : s < T) (hdT : dst < T)
    (hT : T + 2 < 2 ^ 63) (t : Nat → Nat) (o : List Nat) (ht : ∀ j, t j < 256) :
    ∃ t2, Runs (mulCode ((h0 : Int)) s dst T) ⟨t, h0, o⟩ ⟨t2, T, o⟩ ∧
      t2 s = t s ∧ t2 dst = (t dst * t s) % 256 := by
  have hT63 : T < 2 ^ 63 := by omega
  have hd63 : dst < 2 ^ 63 := by omega
  have hdTne : dst ≠ T := by omega
  have hdT1 : dst ≠ T + 1 := by omega
  have hTT1 : T ≠ T + 1 := by omega
  have hsTne : s ≠ T := by omega
  have hsT1 : s ≠ T + 1 := by omega
  rw [mulCode]
  simp only [List.append_assoc]
  have h1 : Runs (setCode ((h0 : Int)) T 0) ⟨t, h0, o⟩ ⟨upd t T 0, T, o⟩ :=
    Runs_set T 0 ⟨t, h0, o⟩ hT63 (by norm_num) (ht T)
  have h2 := Runs_copy1 dst T (T + 1) T hdTne hdT1 hTT1 hd63 hT63 (by omega)
    (upd t T 0) o (by
      intro j
      by_cases hj : j = T
      · simp [upd, hj]
      · rw [upd_ne _ _ hj]; exact ht j)
  have h2x := Runs_congr h2 (show _ =
      (⟨upd (upd t T (t dst)) (T + 1) 0, T + 1, o⟩ : Mach) from by
    congr 1
    funext j
    by_cases hj1 : j = T + 1
    · simp [upd, hj1, hTT1]
    · by_cases hj2 : j = T
      · simp [upd, hj1, hj2, hTT1, hdTne, Ne.symm hdTne]
      · simp [upd, hj1, hj2])
  have h3 : Runs (setCode (((T + 1 : Nat)) : Int) dst 0)
      ⟨upd (upd t T (t dst)) (T + 1) 0, T + 1, o⟩
      ⟨upd (upd (upd t T (t dst)) (T + 1) 0) dst 0, dst, o⟩ :=
    Runs_set dst 0 ⟨upd (upd t T (t dst)) (T + 1) 0, T + 1, o⟩ hd63 (by norm_num)
      (show upd (upd t T (t dst)) (T + 1) 0 dst < 256 by
        rw [upd_ne _ _ hdT1, upd_ne _ _ hdTne]; exact ht dst)
  have h4 : Runs (ptrCode ((dst : Int)) T)
      ⟨upd (upd (upd t T (t dst)) (T + 1) 0) dst 0, dst, o⟩
      ⟨upd (upd (upd t T (t dst)) (T + 1) 0) dst 0, T, o⟩ := by
    simpa using Runs_ptrCode T
      (⟨upd (upd (upd t T (t dst)) (T + 1) 0) dst 0, dst, o⟩ : Mach) hT63
  have ht3T : (upd (upd (upd t T (t dst)) (T + 1) 0) dst 0) T = t dst := by
    rw [upd_ne _ _ (Ne.symm hdTne), upd_ne _ _ hTT1, upd_same]
  have ht3b : ∀ j, (upd (upd (upd t T (t dst)) (T + 1) 0) dst 0) j < 256 := by
    intro j
    by_cases hj1 : j = dst
    · simp [upd, hj1]
    · by_cases hj2 : j = T + 1
      · simp [upd, hj1, hj2]
      · by_cases hj3 : j = T
        · simp [upd, hj1, hj2, hj3, hTT1, Ne.symm hdTne]
          exact ht dst
        · simp [upd, hj1, hj2, hj3]
          exact ht j
  obtain ⟨t2, hrun, h2T, h2d, h2s, h2f, h2b⟩ :=
    Runs_mul_loop s dst T hsd hsT hdT hT (t dst)
      (upd (upd (upd t T (t dst)) (T + 1) 0) dst 0) o ht3T ht3b
  refine ⟨t2, ?_, ?_, ?_⟩
  · exact Runs_append h1 (Runs_append h2x (Runs_append h3 (Runs_append h4 hrun)))
  · rw [h2s]
    simp [upd, hsd, hsT1, hsTne]
  · rw [h2d]
    have hz1 : (upd (upd (upd t T (t dst)) (T + 1) 0) dst 0) dst = 0 := by
      simp [upd]
    have hz2 : (upd (upd (upd t T (t dst)) (T + 1) 0) dst 0) s = t s := by
      simp [upd, hsd, hsT1, hsTne]
    rw [hz1, hz2]
    simp




/-- C5: for all initial byte values in distinct cells `s` and `d` below
the stack top, executing the opcodes emitted by `mul s d` on the
byte-cell machine (starting with the real head at the simulated head)
leaves `s` holding its initial value and `d` holding the product modulo
256. -/
theorem C5_mul_correct (s d T : Nat) (c : Compiler) (m : Mach)
    (hsd : s ≠ d) (hsT : s < T) (hdT : d < T) (hbound : T + 2 < 2 ^ 63)
    (hsp : c.stack_ptr = ((T : Nat) : Int)) (hptr : c.ptr = ((m.head : Nat) : Int))
    (ht : ∀ j, m.tape j < 256) :
    ∃ code m2, (mul s d c).output = c.output ++ code ∧
      Runs code m m2 ∧ m2.tape s = m.tape s ∧
      m2.tape d = (m.tape d * m.tape s) % 256 := by
  obtain ⟨t2, hrun, h2s, h2d⟩ := Runs_mul s d T m.head hsd hsT hdT hbound m.tape m.out ht
  refine ⟨mulCode c.ptr s d T, ⟨t2, T, m.out⟩, ?_, ?_, h2s, h2d⟩
  · rw [mul_char s d T c hsp (by omega) (by omega) hbound]
  · rw [hptr]
    have hm : (⟨m.tape, m.head, m.out⟩ : Mach) = m := by cases m; rfl
    rw [hm] at hrun
    exact hrun

/-- Witness for C5 at a concrete generator state and machine. -/
theorem C5_mul_correct_witness :
    (0 : Nat) ≠ 1 ∧
    (∃ code m2,
      (mul 0 1 ⟨0, 2, [], [], [], []⟩).output = ([] : List Char) ++ code ∧
      Runs code ⟨fun j => if j = 0 then 3 else if j = 1 then 7 else 0, 0, []⟩ m2 ∧
      m2.tape 0 = (fun j : Nat => if j = 0 then 3 else if j = 1 then 7 else 0) 0 ∧
      m2.tape 1 = ((fun j : Nat => if j = 0 then 3 else if j = 1 then 7 else 0) 1 *
        (fun j : Nat => if j = 0 then 3 else if j = 1 then 7 else 0) 0) % 256) := by
  refine ⟨by decide, ?_⟩
  exact C5_mul_correct 0 1 2 ⟨0, 2, [], [], [], []⟩
    ⟨fun j => if j = 0 then 3 else if j = 1 then 7 else 0, 0, []⟩
    (by decide) (by decide) (by decide) (by norm_num) rfl rfl
    (by intro j; by_cases h0 : j = 0 <;> by_cases h1 : j = 1 <;> simp [h0, h1])

/-- The code emitted by `move_val s d` from position `p`. -/
def moveValCode (p : Int) (s d : Nat) : List Char :=
  setCode p d 0 ++ daddCode ((d : Int)) s d

theorem move_val_char (s d : Nat) (c : Compiler) (hs : s < 2 ^ 63) (hd : d < 2 ^ 63) :
    move_val s d c = { c with
      ptr := ((s : Int)),
      output := c.output ++ moveValCode c.ptr s d } := by
  cases c
  simp [move_val, set, dadd, set_ptr, move_ptr, emit, moveValCode, setCode, daddCode,
    daddBody, ptrCode, isizeCast_eq hs, isizeCast_eq hd]

/-- Running the code of `move_val s d`: `d` receives the value of `s`,
`s` is cleared, head ends at `s`. -/
theorem Runs_move_val (s d h0 : Nat) (hsd : s ≠ d) (hs : s < 2 ^ 63) (hd : d < 2 ^ 63)
    (t : Nat → Nat) (o : List Nat) (hts : t s < 256) (htd : t d < 256) :
    Runs (moveValCode ((h0 : Int)) s d) ⟨t, h0, o⟩
      ⟨upd (upd t s 0) d (t s), s, o⟩ := by
  rw [moveValCode]
  have h1 : Runs (setCode ((h0 : Int)) d 0) ⟨t, h0, o⟩ ⟨upd t d 0, d, o⟩ :=
    Runs_set d 0 ⟨t, h0, o⟩ hd (by norm_num) htd
  have h2 := Runs_dadd s d hsd hs hd d (upd t d 0) o
    (show upd t d 0 s < 256 by rw [upd_ne _ _ hsd]; exact hts)
    (show upd t d 0 d < 256 by rw [upd_same]; norm_num)
  have h2x := Runs_congr h2 (show _ =
      (⟨upd (upd t s 0) d (t s), s, o⟩ : Mach) from by
    congr 1
    funext j
    by_cases hj1 : j = d
    · simp [upd, hj1, hsd, Ne.symm hsd]
      omega
    · by_cases hj2 : j = s
      · simp [upd, hj1, hj2, hsd]
      · simp [upd, hj1, hj2])
  exact Runs_append h1 h2x

/-- Running `move_val a b` then `move_val b a`: cell `a` is restored to
its initial value, but cell `b` ends 0 regardless of its initial value. -/
theorem Runs_move_val_pair (a b h0 : Nat) (hab : a ≠ b) (ha : a < 2 ^ 63)
    (hb : b < 2 ^ 63) (t : Nat → Nat) (o : List Nat)
    (hta : t a < 256) (htb : t b < 256) :
    Runs (moveValCode ((h0 : Int)) a b ++ moveValCode ((a : Int)) b a) ⟨t, h0, o⟩
      ⟨upd (upd t b 0) a (t a), b, o⟩ := by
  have h1 := Runs_move_val a b h0 hab ha hb t o hta htb
  have h2 := Runs_move_val b a a (Ne.symm hab) hb ha
    (upd (upd t a 0) b (t a)) o
    (show upd (upd t a 0) b (t a) b < 256 by rw [upd_same]; exact hta)
    (show upd (upd t a 0) b (t a) a < 256 by
      rw [upd_ne _ _ hab, upd_same]; norm_num)
  have h2x := Runs_congr h2 (show _ =
      (⟨upd (upd t b 0) a (t a), b, o⟩ : Mach) from by
    congr 1
    funext j
    by_cases hj1 : j = a
    · simp [upd, hj1, hab]
    · by_cases hj2 : j = b
      · simp [upd, hj1, hj2, Ne.symm hab]
      · simp [upd, hj1, hj2])
  exact Runs_append h1 h2x

theorem move_val_pair_char (a b : Nat) (c : Compiler) (ha : a < 2 ^ 63) (hb : b < 2 ^ 63) :
    move_val b a (move_val a b c) = { c with
      ptr := ((b : Int)),
      output := c.output ++ (moveValCode c.ptr a b ++ moveValCode ((a : Int)) b a) } := by
  rw [move_val_char a b c ha hb, move_val_char b a _ hb ha]
  simp

/-- C7 (amended): running the opcodes of `move_val a b` followed by
`move_val b a` restores cell `a` but leaves cell `b` holding 0; the
composition is the identity on the pair only when `b` started at 0. -/
theorem C7_move_val_roundtrip (a b : Nat) (c : Compiler) (m : Mach) (hab : a ≠ b)
    (ha : a < 2 ^ 63) (hb : b < 2 ^ 63) (hptr : c.ptr = ((m.head : Nat) : Int))
    (ht : ∀ j, m.tape j < 256) :
    ∃ code m2, (move_val b a (move_val a b c)).output = c.output ++ code ∧
      Runs code m m2 ∧ m2.tape a = m.tape a ∧ m2.tape b = 0 := by
  refine ⟨moveValCode c.ptr a b ++ moveValCode ((a : Int)) b a,
    ⟨upd (upd m.tape b 0) a (m.tape a), b, m.out⟩, ?_, ?_, ?_, ?_⟩
  · rw [move_val_pair_char a b c ha hb]
  · rw [hptr]
    have hrun := Runs_move_val_pair a b m.head hab ha hb m.tape m.out (ht a) (ht b)
    have hm : (⟨m.tape, m.head, m.out⟩ : Mach) = m := by cases m; rfl
    rw [hm] at hrun
    exact hrun
  · simp [upd]
  · simp [upd, Ne.symm hab]

/-- Witness for the amended C7 at a concrete state. -/
theorem C7_move_val_roundtrip_witness :
    (0 : Nat) ≠ 1 ∧
    (∃ code m2,
      (move_val 1 0 (move_val 0 1 (⟨0, 2, [], [], [], []⟩ : Compiler))).output =
        ([] : List Char) ++ code ∧
      Runs code ⟨fun j => if j = 0 then 1 else if j = 1 then 5 else 0, 0, []⟩ m2 ∧
      m2.tape 0 = (fun j : Nat => if j = 0 then 1 else if j = 1 then 5 else 0) 0 ∧
      m2.tape 1 = 0) := by
  refine ⟨by decide, ?_⟩
  exact C7_move_val_roundtrip 0 1 ⟨0, 2, [], [], [], []⟩
    ⟨fun j => if j = 0 then 1 else if j = 1 then 5 else 0, 0, []⟩
    (by decide) (by decide) (by decide) rfl
    (by intro j; by_cases h0 : j = 0 <;> by_cases h1 : j = 1 <;> simp [h0, h1])

/-- C7 counterexample: with cells `a = 0`, `b = 1` starting at 1 and 5,
the emitted round trip does not restore `b`, so it is not the identity
on the pair as the claim states. -/
theorem C7_roundtrip_not_identity :
    ¬ (∀ m2 : Mach,
        Runs ((move_val 1 0 (move_val 0 1 (⟨0, 2, [], [], [], []⟩ : Compiler))).output)
          ⟨fun j => if j = 0 then 1 else if j = 1 then 5 else 0, 0, []⟩ m2 →
        m2.tape 0 = 1 ∧ m2.tape 1 = 5) := by
  intro H
  have hchar := move_val_pair_char 0 1 (⟨0, 2, [], [], [], []⟩ : Compiler)
    (by decide) (by decide)
  have hrun := Runs_move_val_pair 0 1 0 (by decide) (by decide) (by decide)
    (fun j => if j = 0 then 1 else if j = 1 then 5 else 0) [] (by decide) (by decide)
  have hfin := H _ (by rw [hchar]; simpa using hrun)
  have hb := hfin.2
  simp [upd] at hb


/-- Loop body of the factoring loop of `set_with_gcf`. -/
def gcfBody (index temp sroot : Nat) : List Char :=
  '-' :: ptrCode ((temp : Int)) index ++ (List.replicate sroot '+' ++ ptrCode ((index : Int)) temp)

/-- The code emitted by `set_with_gcf index temp v` from position `p`. -/
def gcfCode (p : Int) (index temp v : Nat) : List Char :=
  if v < 16 then setCode p index v
  else
    ptrCode p temp ++ List.replicate (natSqrt v) '+' ++
      '[' :: (gcfBody index temp (natSqrt v) ++ [']']) ++
      (if v - natSqrt v * natSqrt v > 0 then
        ptrCode ((temp : Int)) index ++ List.replicate (v - natSqrt v * natSqrt v) '+'
      else [])

theorem gcf_output (index temp v : Nat) (c : Compiler)
    (hi : index < 2 ^ 63) (htm : temp < 2 ^ 63) :
    (set_with_gcf index temp v c).output = c.output ++ gcfCode c.ptr index temp v := by
  by_cases hv : v < 16
  · cases c
    simp [set_with_gcf, hv, gcfCode, set, set_ptr, move_ptr, emit, setCode, ptrCode]
  · by_cases hr : v - natSqrt v * natSqrt v > 0
    · cases c
      simp [set_with_gcf, hv, hr, gcfCode, gcfBody, set, set_ptr, move_ptr, emit, setCode,
        ptrCode, isizeCast_eq hi, isizeCast_eq htm]
    · cases c
      simp [set_with_gcf, hv, hr, gcfCode, gcfBody, set, set_ptr, move_ptr, emit, setCode,
        ptrCode, isizeCast_eq hi, isizeCast_eq htm]

theorem Bal_gcfBody (index temp sroot : Nat) : Bal (gcfBody index temp sroot) :=
  Bal.flat '-' _ (by decide) (by decide)
    (Bal_append (Bal_ptrCode _ _)
      (Bal_append (Bal_replicate _ '+' (by decide) (by decide)) (Bal_ptrCode _ _)))

theorem Runs_gcf_loop (index temp sroot : Nat) (hne : index ≠ temp)
    (hi : index < 2 ^ 63) (htm : temp < 2 ^ 63) :
    ∀ (n : Nat) (t : Nat → Nat) (o : List Nat), t temp = n → n < 256 → t index < 256 →
    Runs ('[' :: (gcfBody index temp sroot ++ [']'])) ⟨t, temp, o⟩
      ⟨upd (upd t temp 0) index ((t index + n * sroot) % 256), temp, o⟩ := by
  have hti : temp ≠ index := Ne.symm hne
  intro n
  induction n with
  | zero =>
    intro t o htT _ hind
    have hfin : (⟨upd (upd t temp 0) index ((t index + 0 * sroot) % 256), temp, o⟩ : Mach)
        = ⟨t, temp, o⟩ := by
      have h1 : upd t temp 0 = t := by rw [← htT]; exact upd_self t temp
      have h2 : (t index + 0 * sroot) % 256 = t index := by
        simp
        omega
      rw [h1, h2, upd_self]
    rw [hfin]
    exact Runs_loop_exit (Bal_gcfBody index temp sroot) (by simp [Mach.cur, htT])
  | succ n ih =>
    intro t o htT hlt hind
    have hA : Runs ['-'] ⟨t, temp, o⟩ ⟨upd t temp n, temp, o⟩ := by
      refine Runs_congr (Runs_single_minus ⟨t, temp, o⟩) ?_
      simp only [Mach.setCur, Mach.cur]
      congr 1
      funext j
      by_cases hj : j = temp
      · simp [upd, hj, htT]
        omega
      · simp [upd, hj]
    have hB : Runs (ptrCode ((temp : Int)) index) ⟨upd t temp n, temp, o⟩
        ⟨upd t temp n, index, o⟩ := by
      simpa using Runs_ptrCode index (⟨upd t temp n, temp, o⟩ : Mach) hi
    have hC : Runs (List.replicate sroot '+') ⟨upd t temp n, index, o⟩
        ⟨upd (upd t temp n) index ((t index + sroot) % 256), index, o⟩ := by
      have h0 := Runs_plusN sroot (⟨upd t temp n, index, o⟩ : Mach)
        (by simp only [Mach.cur]; rw [upd_ne _ _ hne]; exact hind)
      refine Runs_congr h0 ?_
      simp only [Mach.setCur, Mach.cur]
      congr 1
      funext j
      by_cases hj : j = index
      · simp [upd, hj, hne]
      · simp [upd, hj]
    have hD : Runs (ptrCode ((index : Int)) temp)
        ⟨upd (upd t temp n) index ((t index + sroot) % 256), index, o⟩
        ⟨upd (upd t temp n) index ((t index + sroot) % 256), temp, o⟩ := by
      simpa using Runs_ptrCode temp
        (⟨upd (upd t temp n) index ((t index + sroot) % 256), index, o⟩ : Mach) htm
    have hbody : Runs (gcfBody index temp sroot) ⟨t, temp, o⟩
        ⟨upd (upd t temp n) index ((t index + sroot) % 256), temp, o⟩ := by
      have hshape : gcfBody index temp sroot =
          ['-'] ++ (ptrCode ((temp : Int)) index ++
            (List.replicate sroot '+' ++ ptrCode ((index : Int)) temp)) := by
        simp [gcfBody]
      rw [hshape]
      exact Runs_append hA (Runs_append hB (Runs_append hC hD))
    have hIH := ih (upd (upd t temp n) index ((t index + sroot) % 256)) o
      (by rw [upd_ne _ _ hti, upd_same])
      (by omega)
      (by rw [upd_same]; omega)
    have hIH2 := Runs_congr hIH (show _ =
        (⟨upd (upd t temp 0) index ((t index + (n + 1) * sroot) % 256), temp, o⟩ : Mach) from by
      congr 1
      funext j
      by_cases hj1 : j = index
      · simp [upd, hj1, hne, hti]
        congr 1
        ring
      · by_cases hj2 : j = temp
        · simp [upd, hj1, hj2, hne, hti]
        · simp [upd, hj1, hj2])
    refine Runs_loop_iter (Bal_gcfBody index temp sroot) ?_ hbody hIH2
    simp only [Mach.cur]
    rw [htT]
    omega

/-- Running the code of `set_with_gcf index temp v` with `temp` holding 0:
for `v < 16` the cell is cleared and set to `v`; otherwise the factored
loop adds `v` to the current contents of the cell.  `temp` ends 0. -/
theorem Runs_gcf (index temp v h0 : Nat) (hne : index ≠ temp)
    (hi : index < 2 ^ 63) (htm : temp < 2 ^ 63) (hv : v < 256)
    (t : Nat → Nat) (o : List Nat) (ht : ∀ j, t j < 256) (htemp : t temp = 0) :
    ∃ m2, Runs (gcfCode ((h0 : Int)) index temp v) ⟨t, h0, o⟩ m2 ∧
      m2.tape index = (if v < 16 then v else (t index + v) % 256) ∧
      m2.tape temp = 0 := by
  have hti : temp ≠ index := Ne.symm hne
  have hsq : natSqrt v * natSqrt v ≤ v := by
    rw [natSqrt_eq]
    exact Nat.sqrt_le v
  by_cases hsmall : v < 16
  · refine ⟨⟨upd t index v, index, o⟩, ?_, ?_, ?_⟩
    · rw [gcfCode, if_pos hsmall]
      exact Runs_set index v ⟨t, h0, o⟩ hi hv (ht index)
    · simp [upd, hsmall]
    · show upd t index v temp = 0
      rw [upd_ne _ _ hti]
      exact htemp
  · have hsq2 : natSqrt v * natSqrt v ≤ v := hsq
    have hsroot : natSqrt v < 256 := by
      have h2 : natSqrt v ≤ v := by
        rw [natSqrt_eq]
        exact Nat.sqrt_le_self v
      omega
    have h1 : Runs (ptrCode ((h0 : Int)) temp) ⟨t, h0, o⟩ ⟨t, temp, o⟩ := by
      simpa using Runs_ptrCode temp (⟨t, h0, o⟩ : Mach) htm
    have h2 : Runs (List.replicate (natSqrt v) '+') ⟨t, temp, o⟩
        ⟨upd t temp (natSqrt v), temp, o⟩ := by
      have h0x := Runs_plusN (natSqrt v) (⟨t, temp, o⟩ : Mach)
        (by simp only [Mach.cur]; exact ht temp)
      refine Runs_congr h0x ?_
      simp only [Mach.setCur, Mach.cur]
      congr 1
      funext j
      by_cases hj : j = temp
      · simp [upd, hj, htemp]
        omega
      · simp [upd, hj]
    have h3 := Runs_gcf_loop index temp (natSqrt v) hne hi htm (natSqrt v)
      (upd t temp (natSqrt v)) o (by rw [upd_same]) hsroot
      (by rw [upd_ne _ _ hne]; exact ht index)
    have h3x := Runs_congr h3 (show _ =
        (⟨upd (upd t temp 0) index ((t index + natSqrt v * natSqrt v) % 256),
          temp, o⟩ : Mach) from by
      congr 1
      funext j
      by_cases hj1 : j = index
      · simp [upd, hj1, hne, hti]
      · by_cases hj2 : j = temp
        · simp [upd, hj1, hj2, hne, hti]
        · simp [upd, hj1, hj2])
    by_cases hr : v - natSqrt v * natSqrt v > 0
    · have h4 : Runs (ptrCode ((temp : Int)) index)
          ⟨upd (upd t temp 0) index ((t index + natSqrt v * natSqrt v) % 256), temp, o⟩
          ⟨upd (upd t temp 0) index ((t index + natSqrt v * natSqrt v) % 256), index, o⟩ := by
        simpa using Runs_ptrCode index
          (⟨upd (upd t temp 0) index ((t index + natSqrt v * natSqrt v) % 256),
            temp, o⟩ : Mach) hi
      have h5 := Runs_plusN (v - natSqrt v * natSqrt v)
        (⟨upd (upd t temp 0) index ((t index + natSqrt v * natSqrt v) % 256), index, o⟩ : Mach)
        (by simp only [Mach.cur]; rw [upd_same]; omega)
      have h5x := Runs_congr h5 (show _ =
          (⟨upd (upd t temp 0) index ((t index + v) % 256), index, o⟩ : Mach) from by
        simp only [Mach.setCur, Mach.cur]
        congr 1
        funext j
        by_cases hj : j = index
        · simp [upd, hj, hne, hti]
          omega
        · simp [upd, hj])
      refine ⟨⟨upd (upd t temp 0) index ((t index + v) % 256), index, o⟩, ?_, ?_, ?_⟩
      · rw [gcfCode, if_neg hsmall, if_pos hr]
        simp only [List.append_assoc]
        exact Runs_append h1 (Runs_append h2 (Runs_append h3x (Runs_append h4 h5x)))
      · rw [if_neg hsmall]
        simp [upd]
      · show upd (upd t temp 0) index ((t index + v) % 256) temp = 0
        rw [upd_ne _ _ hti, upd_same]
    · have hveq : natSqrt v * natSqrt v = v := by omega
      have h3y := Runs_congr h3x (show _ =
          (⟨upd (upd t temp 0) index ((t index + v) % 256), temp, o⟩ : Mach) from by
        rw [hveq])
      refine ⟨⟨upd (upd t temp 0) index ((t index + v) % 256), temp, o⟩, ?_, ?_, ?_⟩
      · rw [gcfCode, if_neg hsmall, if_neg hr]
        simp only [List.append_assoc, List.append_nil]
        exact Runs_append h1 (Runs_append h2 h3y)
      · rw [if_neg hsmall]
        simp [upd]
      · show upd (upd t temp 0) index ((t index + v) % 256) temp = 0
        rw [upd_ne _ _ hti, upd_same]


/-- C6 (amended): `set_with_gcf i t0 v` with the temporary holding 0 and
the target cell holding 0 leaves cell `i` holding exactly `v` and the
temporary holding 0.  (For `v ≥ 16` the emitted loop adds to cell `i`
rather than setting it, so the zero precondition on `i` is required.) -/
theorem C6_set_with_gcf_correct (i t0 v : Nat) (c : Compiler) (m : Mach)
    (hne : i ≠ t0) (hi : i < 2 ^ 63) (ht0 : t0 < 2 ^ 63) (hv : v < 256)
    (hptr : c.ptr = ((m.head : Nat) : Int)) (htm : m.tape t0 = 0) (hti : m.tape i = 0)
    (ht : ∀ j, m.tape j < 256) :
    ∃ code m2, (set_with_gcf i t0 v c).output = c.output ++ code ∧
      Runs code m m2 ∧ m2.tape i = v ∧ m2.tape t0 = 0 := by
  obtain ⟨m2, hrun, hidx, htmp⟩ := Runs_gcf i t0 v m.head hne hi ht0 hv m.tape m.out ht htm
  refine ⟨gcfCode c.ptr i t0 v, m2, gcf_output i t0 v c hi ht0, ?_, ?_, htmp⟩
  · rw [hptr]
    have hm : (⟨m.tape, m.head, m.out⟩ : Mach) = m := by cases m; rfl
    rw [hm] at hrun
    exact hrun
  · rw [hidx]
    by_cases h16 : v < 16
    · simp [h16]
    · simp [h16, hti]
      omega

/-- Witness for the amended C6 at a concrete state. -/
theorem C6_set_with_gcf_correct_witness :
    (0 : Nat) ≠ 1 ∧
    (∃ code m2,
      (set_with_gcf 0 1 89 (⟨0, 2, [], [], [], []⟩ : Compiler)).output =
        ([] : List Char) ++ code ∧
      Runs code ⟨fun _ => 0, 0, []⟩ m2 ∧ m2.tape 0 = 89 ∧ m2.tape 1 = 0) := by
  refine ⟨by decide, ?_⟩
  exact C6_set_with_gcf_correct 0 1 89 ⟨0, 2, [], [], [], []⟩ ⟨fun _ => 0, 0, []⟩
    (by decide) (by decide) (by decide) (by decide) rfl rfl rfl (fun _ => by norm_num)

/-- C6 counterexample: with cell `i = 0` initially holding 1 and `v = 16`,
the emitted code leaves `i` holding 17, not 16 — the claim fails for a
nonzero initial value of cell `i`. -/
theorem C6_not_16 :
    ¬ (∀ m2 : Mach,
        Runs ((set_with_gcf 0 1 16 (⟨0, 2, [], [], [], []⟩ : Compiler)).output)
          ⟨fun j => if j = 0 then 1 else 0, 0, []⟩ m2 →
        m2.tape 0 = 16 ∧ m2.tape 1 = 0) := by
  intro H
  obtain ⟨m2, hrun, hidx, htmp⟩ := Runs_gcf 0 1 16 0 (by decide) (by decide) (by decide)
    (by decide) (fun j => if j = 0 then 1 else 0) [] (by
      intro j
      by_cases hj : j = 0 <;> simp [hj]) (by norm_num)
  have hout : (set_with_gcf 0 1 16 (⟨0, 2, [], [], [], []⟩ : Compiler)).output =
      gcfCode 0 0 1 16 := by
    rw [gcf_output 0 1 16 (⟨0, 2, [], [], [], []⟩ : Compiler) (by decide) (by decide)]
    rfl
  have hfin := (H m2 (by rw [hout]; simpa using hrun)).1
  rw [hidx] at hfin
  simp at hfin


/-!
### Head-emission synchrony

`HeadSync f` states that the generator step `f` appends some fragment to
the output whose net `>`/`<` displacement equals the change `f` applies
to the simulated head — i.e. all head mutation and all `<`/`>` emission
go through `move_ptr`/`set_ptr`.
-/

/-- Net head displacement of a code fragment. -/
def netHead (code : List Char) : Int :=
  (code.count '>' : Int) - (code.count '<' : Int)

/-- The generator step `f` keeps the simulated head in sync with the net
displacement of what it emits. -/
def HeadSync (f : Compiler → Compiler) : Prop :=
  ∀ c, ∃ d, (f c).output = c.output ++ d ∧ (f c).ptr - c.ptr = netHead d

theorem netHead_append (a b : List Char) : netHead (a ++ b) = netHead a + netHead b := by
  simp [netHead, List.count_append]
  ring

theorem HeadSync_comp {f g : Compiler → Compiler} (hf : HeadSync f) (hg : HeadSync g) :
    HeadSync (fun c => g (f c)) := by
  intro c
  obtain ⟨d1, ho1, hp1⟩ := hf c
  obtain ⟨d2, ho2, hp2⟩ := hg (f c)
  refine ⟨d1 ++ d2, ?_, ?_⟩
  · show (g (f c)).output = _
    rw [ho2, ho1, List.append_assoc]
  · show (g (f c)).ptr - c.ptr = _
    rw [netHead_append]
    omega

theorem HeadSync_emit (s : List Char) (hs : netHead s = 0) : HeadSync (emit s) := by
  intro c
  exact ⟨s, rfl, by simp [emit, hs]⟩

theorem HeadSync_state {f : Compiler → Compiler} (hp : ∀ c, (f c).ptr = c.ptr)
    (ho : ∀ c, (f c).output = c.output) : HeadSync f := by
  intro c
  refine ⟨[], by simp [ho], by simp [netHead, hp]⟩

theorem netHead_plus (n : Nat) : netHead (List.replicate n '+') = 0 := by
  simp [netHead, List.count_replicate]

theorem netHead_rightsR (n : Nat) : netHead (List.replicate n '>') = (n : Int) := by
  simp [netHead, List.count_replicate]

theorem netHead_leftsR (n : Nat) : netHead (List.replicate n '<') = -(n : Int) := by
  simp [netHead, List.count_replicate]

theorem HeadSync_move_ptr (off : Int) : HeadSync (move_ptr off) := by
  intro c
  refine ⟨List.replicate off.natAbs (if off > 0 then '>' else '<'), rfl, ?_⟩
  by_cases h : off > 0
  · rw [if_pos h, netHead_rightsR]
    show c.ptr + off - c.ptr = _
    omega
  · rw [if_neg h, netHead_leftsR]
    show c.ptr + off - c.ptr = _
    omega

theorem HeadSync_set_ptr (i : Nat) : HeadSync (set_ptr i) := by
  intro c
  exact HeadSync_move_ptr (isizeCast i - c.ptr) c

theorem HeadSync_set (i v : Nat) : HeadSync (set i v) := by
  have h := HeadSync_comp (HeadSync_comp (HeadSync_set_ptr i)
    (HeadSync_emit ['[', '-', ']'] (by decide)))
    (HeadSync_emit (List.replicate v '+') (netHead_plus v))
  exact h

theorem HeadSync_set_with_gcf (i t0 v : Nat) : HeadSync (set_with_gcf i t0 v) := by
  intro c
  by_cases hv : v < 16
  · have h := HeadSync_set i v c
    simpa [set_with_gcf, hv] using h
  · by_cases hr : v - natSqrt v * natSqrt v > 0
    · have h := HeadSync_comp (HeadSync_comp (HeadSync_comp (HeadSync_comp
        (HeadSync_comp (HeadSync_comp (HeadSync_comp (HeadSync_comp
          (HeadSync_set_ptr t0)
          (HeadSync_emit (List.replicate (natSqrt v) '+') (netHead_plus _)))
          (HeadSync_emit ['[', '-'] (by decide)))
          (HeadSync_set_ptr i))
          (HeadSync_emit (List.replicate (natSqrt v) '+') (netHead_plus _)))
          (HeadSync_set_ptr t0))
          (HeadSync_emit [']'] (by decide)))
          (HeadSync_set_ptr i))
          (HeadSync_emit (List.replicate (v - natSqrt v * natSqrt v) '+') (netHead_plus _))
      have h2 := h c
      simpa [set_with_gcf, hv, hr] using h2
    · have h := HeadSync_comp (HeadSync_comp (HeadSync_comp (HeadSync_comp
        (HeadSync_comp (HeadSync_comp
          (HeadSync_set_ptr t0)
          (HeadSync_emit (List.replicate (natSqrt v) '+') (netHead_plus _)))
          (HeadSync_emit ['[', '-'] (by decide)))
          (HeadSync_set_ptr i))
          (HeadSync_emit (List.replicate (natSqrt v) '+') (netHead_plus _)))
          (HeadSync_set_ptr t0))
          (HeadSync_emit [']'] (by decide))
      have h2 := h c
      simpa [set_with_gcf, hv, hr] using h2

theorem HeadSync_dadd (s d : Nat) : HeadSync (dadd s d) := by
  have h := HeadSync_comp (HeadSync_comp (HeadSync_comp (HeadSync_comp (HeadSync_comp
    (HeadSync_set_ptr s)
    (HeadSync_emit ['[', '-'] (by decide)))
    (HeadSync_set_ptr d))
    (HeadSync_emit ['+'] (by decide)))
    (HeadSync_set_ptr s))
    (HeadSync_emit [']'] (by decide))
  exact h

theorem HeadSync_dsub (s d : Nat) : HeadSync (dsub s d) := by
  have h := HeadSync_comp (HeadSync_comp (HeadSync_comp (HeadSync_comp (HeadSync_comp
    (HeadSync_set_ptr s)
    (HeadSync_emit ['[', '-'] (by decide)))
    (HeadSync_set_ptr d))
    (HeadSync_emit ['-'] (by decide)))
    (HeadSync_set_ptr s))
    (HeadSync_emit [']'] (by decide))
  exact h

theorem HeadSync_move_val (s d : Nat) : HeadSync (move_val s d) := by
  have h := HeadSync_comp (HeadSync_set d 0) (HeadSync_dadd s d)
  exact h

theorem HeadSync_foldl {st : Nat → Compiler → Compiler}
    (h : ∀ d, HeadSync (st d)) :
    ∀ l : List Nat, HeadSync (fun c => l.foldl (fun acc d => st d acc) c) := by
  intro l
  induction l with
  | nil => exact HeadSync_state (fun _ => rfl) (fun _ => rfl)
  | cons x xs ih => exact HeadSync_comp (h x) ih

theorem HeadSync_malloc (n : Nat) : HeadSync (fun c => (malloc n c).2) :=
  HeadSync_state (fun _ => rfl) (fun _ => rfl)

theorem HeadSync_dealloc (n : Nat) : HeadSync (dealloc n) :=
  HeadSync_state (fun _ => rfl) (fun _ => rfl)

/-- The zeroing prefix of `copy_val`. -/
def copyZero (ds : List Nat) (c : Compiler) : Compiler :=
  ds.foldl (fun acc d => set d 0 acc) c

/-- The body of `copy_val` after the temporary has been allocated:
drain `s` into the destinations and `tmp`, then move `tmp` back. -/
def copyLoop (s tmp : Nat) (ds : List Nat) (x : Compiler) : Compiler :=
  dealloc 1 (move_val tmp s (emit [']'] (set_ptr s (emit ['+'] (set_ptr tmp
    (List.foldl (fun acc d => emit ['+'] (set_ptr d acc))
      (emit ['[', '-'] (set_ptr s x)) ds))))))

theorem HeadSync_copyZero (ds : List Nat) : HeadSync (copyZero ds) := by
  have h := HeadSync_foldl (fun d => HeadSync_set d 0) ds
  exact h

theorem HeadSync_copyLoop (s tmp : Nat) (ds : List Nat) : HeadSync (copyLoop s tmp ds) := by
  have hfold := HeadSync_foldl
    (fun d => HeadSync_comp (HeadSync_set_ptr d) (HeadSync_emit ['+'] (by decide))) ds
  have h := HeadSync_comp (HeadSync_comp (HeadSync_comp (HeadSync_comp (HeadSync_comp
    (HeadSync_comp (HeadSync_comp (HeadSync_comp
      (HeadSync_set_ptr s)
      (HeadSync_emit ['[', '-'] (by decide)))
      hfold)
      (HeadSync_set_ptr tmp))
      (HeadSync_emit ['+'] (by decide)))
      (HeadSync_set_ptr s))
      (HeadSync_emit [']'] (by decide)))
      (HeadSync_move_val tmp s))
      (HeadSync_dealloc 1)
  exact h

theorem HeadSync_calloc (n : Nat) : HeadSync (fun c => (calloc n c).2) := by
  intro c
  have hfold := HeadSync_foldl
    (fun d => HeadSync_set d 0) ((List.range n).map (fun i => usizeCast c.stack_ptr + i))
  obtain ⟨dd, ho, hp⟩ := hfold { c with stack_ptr := c.stack_ptr + isizeCast n }
  have heq : (calloc n c).2 =
      List.foldl (fun acc d => set d 0 acc)
        { c with stack_ptr := c.stack_ptr + isizeCast n }
        ((List.range n).map (fun i => usizeCast c.stack_ptr + i)) := by
    rw [calloc]
    simp [malloc, List.foldl_map]
  have ho2 : (List.foldl (fun acc d => set d 0 acc)
      { c with stack_ptr := c.stack_ptr + isizeCast n }
      ((List.range n).map (fun i => usizeCast c.stack_ptr + i))).output =
      c.output ++ dd := ho
  have hp2 : (List.foldl (fun acc d => set d 0 acc)
      { c with stack_ptr := c.stack_ptr + isizeCast n }
      ((List.range n).map (fun i => usizeCast c.stack_ptr + i))).ptr -
      c.ptr = netHead dd := hp
  refine ⟨dd, ?_, ?_⟩
  · show (calloc n c).2.output = _
    rw [heq, ho2]
  · show (calloc n c).2.ptr - c.ptr = _
    rw [heq]
    exact hp2

theorem HeadSync_copy_val (s : Nat) (ds : List Nat) : HeadSync (copy_val s ds) := by
  intro c
  obtain ⟨dA, hoA, hpA⟩ := HeadSync_copyZero ds c
  obtain ⟨dB, hoB, hpB⟩ := HeadSync_calloc 1 (copyZero ds c)
  obtain ⟨dC, hoC, hpC⟩ :=
    HeadSync_copyLoop s (calloc 1 (copyZero ds c)).1 ds (calloc 1 (copyZero ds c)).2
  have hoB2 : (calloc 1 (copyZero ds c)).2.output = (copyZero ds c).output ++ dB := hoB
  have hpB2 : (calloc 1 (copyZero ds c)).2.ptr - (copyZero ds c).ptr = netHead dB := hpB
  have hcv : copy_val s ds c =
      copyLoop s (calloc 1 (copyZero ds c)).1 ds (calloc 1 (copyZero ds c)).2 := rfl
  refine ⟨dA ++ (dB ++ dC), ?_, ?_⟩
  · rw [hcv, hoC, hoB2, hoA]
    simp [List.append_assoc]
  · rw [hcv, netHead_append, netHead_append]
    omega


theorem HeadSync_writeBytes (bytes : List Nat) : ∀ i, HeadSync (writeBytes i bytes) := by
  induction bytes with
  | nil =>
    intro i
    exact HeadSync_state (fun _ => rfl) (fun _ => rfl)
  | cons b rest ih =>
    intro i
    have h := HeadSync_comp (HeadSync_set_with_gcf i (i + 1) b) (ih (i + 1))
    exact h

theorem HeadSync_write_str (i : Nat) (s : String) : HeadSync (write_str i s) := by
  have h := HeadSync_comp (HeadSync_writeBytes (strBytes s) i)
    (HeadSync_set (i + (strBytes s).length) 0)
  exact h

theorem HeadSync_add_string_literal (s : String) :
    HeadSync (fun c => (add_string_literal s c).2) := by
  intro c
  obtain ⟨d1, ho1, hp1⟩ := HeadSync_write_str (usizeCast c.stack_ptr) s
    { c with stack_ptr := c.stack_ptr + isizeCast ((strBytes s).length + 1) }
  have ho2 : (write_str (usizeCast c.stack_ptr) s
      { c with stack_ptr := c.stack_ptr + isizeCast ((strBytes s).length + 1) }).output =
      c.output ++ d1 := ho1
  have hp2 : (write_str (usizeCast c.stack_ptr) s
      { c with stack_ptr := c.stack_ptr + isizeCast ((strBytes s).length + 1) }).ptr -
      c.ptr = netHead d1 := hp1
  refine ⟨d1, ?_, ?_⟩
  · show (write_str (usizeCast c.stack_ptr) s
      { c with stack_ptr := c.stack_ptr + isizeCast ((strBytes s).length + 1) }).output = _
    exact ho2
  · show (write_str (usizeCast c.stack_ptr) s
      { c with stack_ptr := c.stack_ptr + isizeCast ((strBytes s).length + 1) }).ptr -
      c.ptr = _
    exact hp2

/-- The body of `add` after the temporary has been allocated. -/
def addLoop (s d tmp : Nat) (x : Compiler) : Compiler :=
  dealloc 1 (dadd tmp d (copy_val s [tmp] x))

/-- The body of `sub` after the temporary has been allocated. -/
def subLoop (s d tmp : Nat) (x : Compiler) : Compiler :=
  dealloc 1 (dsub tmp d (copy_val s [tmp] x))

/-- The body of `mul` after the counter cell has been allocated. -/
def mulLoop (s d cnt : Nat) (x : Compiler) : Compiler :=
  dealloc 1 (emit [']'] (set_ptr cnt (add s d (emit ['[', '-']
    (set_ptr cnt (set d 0 (copy_val d [cnt] x)))))))

theorem HeadSync_addLoop (s d tmp : Nat) : HeadSync (addLoop s d tmp) := by
  have h := HeadSync_comp (HeadSync_comp (HeadSync_copy_val s [tmp])
    (HeadSync_dadd tmp d)) (HeadSync_dealloc 1)
  exact h

theorem HeadSync_subLoop (s d tmp : Nat) : HeadSync (subLoop s d tmp) := by
  have h := HeadSync_comp (HeadSync_comp (HeadSync_copy_val s [tmp])
    (HeadSync_dsub tmp d)) (HeadSync_dealloc 1)
  exact h

theorem HeadSync_add (s d : Nat) : HeadSync (add s d) := by
  intro c
  obtain ⟨dB, hoB, hpB⟩ := HeadSync_calloc 1 c
  have hoB2 : (calloc 1 c).2.output = c.output ++ dB := hoB
  have hpB2 : (calloc 1 c).2.ptr - c.ptr = netHead dB := hpB
  obtain ⟨dC, hoC, hpC⟩ := HeadSync_addLoop s d (calloc 1 c).1 (calloc 1 c).2
  have hcv : add s d c = addLoop s d (calloc 1 c).1 (calloc 1 c).2 := rfl
  refine ⟨dB ++ dC, ?_, ?_⟩
  · rw [hcv, hoC, hoB2, List.append_assoc]
  · rw [hcv, netHead_append]
    omega

theorem HeadSync_sub (s d : Nat) : HeadSync (sub s d) := by
  intro c
  obtain ⟨dB, hoB, hpB⟩ := HeadSync_calloc 1 c
  have hoB2 : (calloc 1 c).2.output = c.output ++ dB := hoB
  have hpB2 : (calloc 1 c).2.ptr - c.ptr = netHead dB := hpB
  obtain ⟨dC, hoC, hpC⟩ := HeadSync_subLoop s d (calloc 1 c).1 (calloc 1 c).2
  have hcv : sub s d c = subLoop s d (calloc 1 c).1 (calloc 1 c).2 := rfl
  refine ⟨dB ++ dC, ?_, ?_⟩
  · rw [hcv, hoC, hoB2, List.append_assoc]
  · rw [hcv, netHead_append]
    omega

theorem HeadSync_mulLoop (s d cnt : Nat) : HeadSync (mulLoop s d cnt) := by
  have h := HeadSync_comp (HeadSync_comp (HeadSync_comp (HeadSync_comp (HeadSync_comp
    (HeadSync_comp (HeadSync_comp
      (HeadSync_copy_val d [cnt])
      (HeadSync_set d 0))
      (HeadSync_set_ptr cnt))
      (HeadSync_emit ['[', '-'] (by decide)))
      (HeadSync_add s d))
      (HeadSync_set_ptr cnt))
      (HeadSync_emit [']'] (by decide)))
      (HeadSync_dealloc 1)
  exact h

theorem HeadSync_mul (s d : Nat) : HeadSync (mul s d) := by
  intro c
  obtain ⟨dB, hoB, hpB⟩ := HeadSync_calloc 1 c
  have hoB2 : (calloc 1 c).2.output = c.output ++ dB := hoB
  have hpB2 : (calloc 1 c).2.ptr - c.ptr = netHead dB := hpB
  obtain ⟨dC, hoC, hpC⟩ := HeadSync_mulLoop s d (calloc 1 c).1 (calloc 1 c).2
  have hcv : mul s d c = mulLoop s d (calloc 1 c).1 (calloc 1 c).2 := rfl
  refine ⟨dB ++ dC, ?_, ?_⟩
  · rw [hcv, hoC, hoB2, List.append_assoc]
  · rw [hcv, netHead_append]
    omega

/-- **C9** (corrected).  `move_ptr`/`set_ptr` keep the simulated head in
sync with the emitted `<`/`>` characters, and every higher-level
generator primitive — `set`, `set_with_gcf`, `dadd`, `dsub`, `move_val`,
`copy_val`, `add`, `sub`, `mul`, `write_str`, `malloc`, `calloc`,
`dealloc`, `add_string_literal` — preserves this synchrony: it appends a
fragment whose net head displacement equals the change it applies to the
simulated head.  The exception is `print_str_at` (see the accompanying
counterexample): it advances the simulated head by the string length
directly, without a matching emission. -/
theorem C9_head_sync (off : Int) (i t0 v s d n : Nat) (ds : List Nat) (str : String) :
    HeadSync (move_ptr off) ∧ HeadSync (set_ptr i) ∧ HeadSync (set i v) ∧
    HeadSync (set_with_gcf i t0 v) ∧ HeadSync (dadd s d) ∧ HeadSync (dsub s d) ∧
    HeadSync (move_val s d) ∧ HeadSync (copy_val s ds) ∧ HeadSync (add s d) ∧
    HeadSync (sub s d) ∧ HeadSync (mul s d) ∧ HeadSync (write_str i str) ∧
    HeadSync (fun c => (malloc n c).2) ∧ HeadSync (fun c => (calloc n c).2) ∧
    HeadSync (dealloc n) ∧ HeadSync (fun c => (add_string_literal str c).2) :=
  ⟨HeadSync_move_ptr off, HeadSync_set_ptr i, HeadSync_set i v,
   HeadSync_set_with_gcf i t0 v, HeadSync_dadd s d, HeadSync_dsub s d,
   HeadSync_move_val s d, HeadSync_copy_val s ds, HeadSync_add s d,
   HeadSync_sub s d, HeadSync_mul s d, HeadSync_write_str i str,
   HeadSync_malloc n, HeadSync_calloc n, HeadSync_dealloc n,
   HeadSync_add_string_literal str⟩

/-- **C9**, counterexample to the claim as stated: `print_str_at` mutates
the simulated head without a matching emission.  With the string literal
`"Hi"` recorded at cell 0, `print_str_at 0` emits `[.>]` (net
displacement 1) but advances the simulated head by 2. -/
theorem C9_print_str_at_not_synced : ¬ HeadSync (print_str_at 0) := by
  intro H
  obtain ⟨d, ho, hp⟩ := H ⟨0, 3, [], [], [], [("Hi", 0)]⟩
  have hout : (print_str_at 0 (⟨0, 3, [], [], [], [("Hi", 0)]⟩ : Compiler)).output =
      ['[', '.', '>', ']'] := by decide
  have hd : d = ['[', '.', '>', ']'] := by simpa using ho.symm.trans hout
  rw [hd] at hp
  exact absurd hp (by decide)


/-- **C10** (confirmed).  When `alloc_var name` is invoked while `name`
is already bound, it returns the "already defined" error, but the state
has already been mutated: the stack top has advanced by one, the
clear-to-zero code for the newly allocated cell has been emitted, and
`name` has been rebound to the new index. -/
theorem C10_alloc_var_error_state (name : String) (c : Compiler)
    (h : (lookupA c.vars name).isSome) :
    (alloc_var name c).1 =
      Except.error (CErr.err ("Variable " ++ name ++ " is already defined")) ∧
    (alloc_var name c).2.stack_ptr = c.stack_ptr + 1 ∧
    lookupA (alloc_var name c).2.vars name = some (usizeCast c.stack_ptr) ∧
    (alloc_var name c).2.output = c.output ++ setCode c.ptr (usizeCast c.stack_ptr) 0 := by
  obtain ⟨ix, hix⟩ := Option.isSome_iff_exists.mp h
  cases c with
  | mk p sp o vl fns sl =>
    simp only [lookupA] at hix
    refine ⟨?_, ?_, ?_, ?_⟩ <;>
      simp [alloc_var, calloc, malloc, range_one, set_char, lookupA,
        isizeCast_one, setCode, hix]

/-- Instance of `C10_alloc_var_error_state` at a state where `"x"` is
bound to cell 0 and the top is 1. -/
theorem C10_alloc_var_error_state_witness :
    (alloc_var "x" (⟨0, 1, [], [("x", 0)], [], []⟩ : Compiler)).1 =
      Except.error (CErr.err ("Variable " ++ "x" ++ " is already defined")) ∧
    (alloc_var "x" (⟨0, 1, [], [("x", 0)], [], []⟩ : Compiler)).2.stack_ptr = 1 + 1 ∧
    lookupA (alloc_var "x" (⟨0, 1, [], [("x", 0)], [], []⟩ : Compiler)).2.vars "x" =
      some (usizeCast 1) ∧
    (alloc_var "x" (⟨0, 1, [], [("x", 0)], [], []⟩ : Compiler)).2.output =
      [] ++ setCode 0 (usizeCast 1) 0 :=
  C10_alloc_var_error_state "x" ⟨0, 1, [], [("x", 0)], [], []⟩ (by decide)


/-- **C2**.  What `dealloc_var` actually does: it removes the binding
but decreases the stack top by the *cell index* the name was bound to
(the source passes `index` to `dealloc`), not by 1. -/
theorem C2_dealloc_var_by_index (name : String) (c : Compiler) (ix : Nat)
    (h : lookupA c.vars name = some ix) :
    (dealloc_var name c).1 = Except.ok () ∧
    (dealloc_var name c).2.vars = removeF c.vars name ∧
    (dealloc_var name c).2.stack_ptr = c.stack_ptr - isizeCast ix := by
  cases c with
  | mk p sp o vl fns sl =>
    simp only [lookupA] at h
    refine ⟨?_, ?_, ?_⟩ <;> simp [dealloc_var, lookupA, dealloc, h]

/-- Instance of `C2_dealloc_var_by_index`: `"x"` bound to cell 2 with
top 3. -/
theorem C2_dealloc_var_by_index_witness :
    (dealloc_var "x" (⟨0, 3, [], [("x", 2)], [], []⟩ : Compiler)).1 = Except.ok () ∧
    (dealloc_var "x" (⟨0, 3, [], [("x", 2)], [], []⟩ : Compiler)).2.vars =
      removeF [("x", 2)] "x" ∧
    (dealloc_var "x" (⟨0, 3, [], [("x", 2)], [], []⟩ : Compiler)).2.stack_ptr =
      3 - isizeCast 2 :=
  C2_dealloc_var_by_index "x" ⟨0, 3, [], [("x", 2)], [], []⟩ 2 (by decide)

/-- **C2**, the divergence made concrete: with `"x"` bound to cell 2 and
top 3, `dealloc_var "x"` leaves the top at 1, not at 3 − 1 = 2. -/
theorem C2_dealloc_var_not_one :
    (dealloc_var "x" (⟨0, 3, [], [("x", 2)], [], []⟩ : Compiler)).2.stack_ptr = 1 ∧
    (dealloc_var "x" (⟨0, 3, [], [("x", 2)], [], []⟩ : Compiler)).2.stack_ptr ≠ 3 - 1 := by
  refine ⟨?_, ?_⟩ <;> decide


/-- **C8** (corrected).  Evaluating a binary expression built from one of
the ten reserved operators aborts the compilation, but through a panic
(`todo!`, modelled as a fatal error), not through a returned
"unsupported operator" diagnostic. -/
theorem C8_reserved_ops_fatal (op : BinaryOp)
    (h : op = BinaryOp.divB ∨ op = BinaryOp.modB ∨ op = BinaryOp.eqB ∨
         op = BinaryOp.neqB ∨ op = BinaryOp.ltB ∨ op = BinaryOp.leqB ∨
         op = BinaryOp.gtB ∨ op = BinaryOp.geqB ∨ op = BinaryOp.andB ∨
         op = BinaryOp.orB)
    (a b dest : Nat) (c : Compiler) :
    ∃ msg, (evaluate_expression (Expr.binary (Expr.number a) op (Expr.number b)) dest c).1 =
      Except.error (CErr.fatal msg) := by
  rcases h with h | h | h | h | h | h | h | h | h | h <;> subst h <;> exact ⟨_, rfl⟩

/-- Instance of `C8_reserved_ops_fatal` at division of two literals. -/
theorem C8_reserved_ops_fatal_witness :
    (BinaryOp.divB = BinaryOp.divB ∨ BinaryOp.divB = BinaryOp.modB ∨
     BinaryOp.divB = BinaryOp.eqB ∨ BinaryOp.divB = BinaryOp.neqB ∨
     BinaryOp.divB = BinaryOp.ltB ∨ BinaryOp.divB = BinaryOp.leqB ∨
     BinaryOp.divB = BinaryOp.gtB ∨ BinaryOp.divB = BinaryOp.geqB ∨
     BinaryOp.divB = BinaryOp.andB ∨ BinaryOp.divB = BinaryOp.orB) ∧
    ∃ msg, (evaluate_expression
        (Expr.binary (Expr.number 1) BinaryOp.divB (Expr.number 2)) 0 Compiler.new).1 =
      Except.error (CErr.fatal msg) :=
  ⟨Or.inl rfl, C8_reserved_ops_fatal BinaryOp.divB (Or.inl rfl) 1 2 0 Compiler.new⟩

set_option maxRecDepth 10000 in
/-- **C8**, counterexample to the claim as stated: lowering
`let x = 1 / 2;` ends in the division panic — a fatal error carrying the
`todo!` message, never an `err` — and opcodes for the operands have
already been emitted when it fires. -/
theorem C8_div_is_panic_not_err :
    (variable_definition "x"
        (some (Expr.binary (Expr.number 1) BinaryOp.divB (Expr.number 2))) Compiler.new).1 =
      Except.error (CErr.fatal "not yet implemented: Division is not yet supported") ∧
    (∀ msg, (variable_definition "x"
        (some (Expr.binary (Expr.number 1) BinaryOp.divB (Expr.number 2))) Compiler.new).1 ≠
      Except.error (CErr.err msg)) ∧
    (variable_definition "x"
        (some (Expr.binary (Expr.number 1) BinaryOp.divB (Expr.number 2))) Compiler.new).2.output ≠
      [] := by
  refine ⟨rfl, ?_, by decide⟩
  intro msg hmsg
  have h1 : (variable_definition "x"
      (some (Expr.binary (Expr.number 1) BinaryOp.divB (Expr.number 2))) Compiler.new).1 =
      Except.error (CErr.fatal "not yet implemented: Division is not yet supported") := rfl
  rw [h1] at hmsg
  simp at hmsg


/-!
### Frame facts for the expression evaluator

`FrameUp f k` states that the generator step `f` changes the stack top
by exactly `k` and leaves the variable, function and string-literal maps
untouched.
-/

def FrameUp (f : Compiler → Compiler) (k : Int) : Prop :=
  ∀ c, (f c).stack_ptr = c.stack_ptr + k ∧ (f c).vars = c.vars ∧
    (f c).functions = c.functions ∧ (f c).string_literals = c.string_literals

theorem FrameUp_comp {f g : Compiler → Compiler} {k l : Int}
    (hf : FrameUp f k) (hg : FrameUp g l) : FrameUp (fun c => g (f c)) (k + l) := by
  intro c
  obtain ⟨h1, h2, h3, h4⟩ := hf c
  obtain ⟨g1, g2, g3, g4⟩ := hg (f c)
  refine ⟨?_, ?_, ?_, ?_⟩
  · show (g (f c)).stack_ptr = c.stack_ptr + (k + l)
    omega
  · show (g (f c)).vars = c.vars
    rw [g2, h2]
  · show (g (f c)).functions = c.functions
    rw [g3, h3]
  · show (g (f c)).string_literals = c.string_literals
    rw [g4, h4]

theorem FrameUp_k {f : Compiler → Compiler} {k l : Int} (h : FrameUp f k) (he : k = l) :
    FrameUp f l := he ▸ h

theorem FrameUp_emit (s : List Char) : FrameUp (emit s) 0 := by
  intro c
  refine ⟨by simp [emit], rfl, rfl, rfl⟩

theorem FrameUp_move_ptr (off : Int) : FrameUp (move_ptr off) 0 := by
  intro c
  refine ⟨by simp [move_ptr, emit], rfl, rfl, rfl⟩

theorem FrameUp_set_ptr (i : Nat) : FrameUp (set_ptr i) 0 := by
  intro c
  exact FrameUp_move_ptr (isizeCast i - c.ptr) c

theorem FrameUp_set (i v : Nat) : FrameUp (set i v) 0 := by
  intro c
  rw [set_char]
  refine ⟨by simp, rfl, rfl, rfl⟩

theorem FrameUp_set_with_gcf (i t0 v : Nat) : FrameUp (set_with_gcf i t0 v) 0 := by
  intro c
  by_cases hv : v < 16
  · have h := FrameUp_set i v c
    simpa [set_with_gcf, hv] using h
  · by_cases hr : v - natSqrt v * natSqrt v > 0
    · have h := FrameUp_comp (FrameUp_comp (FrameUp_comp (FrameUp_comp
        (FrameUp_comp (FrameUp_comp (FrameUp_comp (FrameUp_comp
          (FrameUp_set_ptr t0)
          (FrameUp_emit (List.replicate (natSqrt v) '+')))
          (FrameUp_emit ['[', '-']))
          (FrameUp_set_ptr i))
          (FrameUp_emit (List.replicate (natSqrt v) '+')))
          (FrameUp_set_ptr t0))
          (FrameUp_emit [']']))
          (FrameUp_set_ptr i))
          (FrameUp_emit (List.replicate (v - natSqrt v * natSqrt v) '+'))
      have h2 := h c
      simpa [set_with_gcf, hv, hr] using h2
    · have h := FrameUp_comp (FrameUp_comp (FrameUp_comp (FrameUp_comp
        (FrameUp_comp (FrameUp_comp
          (FrameUp_set_ptr t0)
          (FrameUp_emit (List.replicate (natSqrt v) '+')))
          (FrameUp_emit ['[', '-']))
          (FrameUp_set_ptr i))
          (FrameUp_emit (List.replicate (natSqrt v) '+')))
          (FrameUp_set_ptr t0))
          (FrameUp_emit [']'])
      have h2 := h c
      simpa [set_with_gcf, hv, hr] using h2

theorem FrameUp_dadd (s d : Nat) : FrameUp (dadd s d) 0 := by
  have h := FrameUp_comp (FrameUp_comp (FrameUp_comp (FrameUp_comp (FrameUp_comp
    (FrameUp_set_ptr s)
    (FrameUp_emit ['[', '-']))
    (FrameUp_set_ptr d))
    (FrameUp_emit ['+']))
    (FrameUp_set_ptr s))
    (FrameUp_emit [']'])
  exact h

theorem FrameUp_dsub (s d : Nat) : FrameUp (dsub s d) 0 := by
  have h := FrameUp_comp (FrameUp_comp (FrameUp_comp (FrameUp_comp (FrameUp_comp
    (FrameUp_set_ptr s)
    (FrameUp_emit ['[', '-']))
    (FrameUp_set_ptr d))
    (FrameUp_emit ['-']))
    (FrameUp_set_ptr s))
    (FrameUp_emit [']'])
  exact h

theorem FrameUp_move_val (s d : Nat) : FrameUp (move_val s d) 0 := by
  have h := FrameUp_comp (FrameUp_set d 0) (FrameUp_dadd s d)
  exact h

theorem FrameUp_dealloc (n : Nat) : FrameUp (dealloc n) (-(isizeCast n)) := by
  intro c
  refine ⟨?_, rfl, rfl, rfl⟩
  show c.stack_ptr - isizeCast n = _
  omega

theorem FrameUp_foldl {st : Nat → Compiler → Compiler}
    (h : ∀ d, FrameUp (st d) 0) :
    ∀ l : List Nat, FrameUp (fun c => l.foldl (fun acc d => st d acc) c) 0 := by
  intro l
  induction l with
  | nil =>
    intro c
    refine ⟨by simp, rfl, rfl, rfl⟩
  | cons x xs ih =>
    have h2 := FrameUp_comp (h x) ih
    exact h2

theorem FrameUp_calloc (n : Nat) : FrameUp (fun c => (calloc n c).2) (isizeCast n) := by
  intro c
  have hfold := FrameUp_foldl (fun d => FrameUp_set d 0)
    ((List.range n).map (fun i => usizeCast c.stack_ptr + i))
    { c with stack_ptr := c.stack_ptr + isizeCast n }
  have heq : (calloc n c).2 =
      List.foldl (fun acc d => set d 0 acc)
        { c with stack_ptr := c.stack_ptr + isizeCast n }
        ((List.range n).map (fun i => usizeCast c.stack_ptr + i)) := by
    rw [calloc]
    simp [malloc, List.foldl_map]
  obtain ⟨h1, h2, h3, h4⟩ := hfold
  refine ⟨?_, ?_, ?_, ?_⟩
  · show (calloc n c).2.stack_ptr = _
    rw [heq]
    have h1b : (List.foldl (fun acc d => set d 0 acc)
        { c with stack_ptr := c.stack_ptr + isizeCast n }
        ((List.range n).map (fun i => usizeCast c.stack_ptr + i))).stack_ptr =
        c.stack_ptr + isizeCast n + 0 := h1
    omega
  · show (calloc n c).2.vars = _
    rw [heq]
    exact h2
  · show (calloc n c).2.functions = _
    rw [heq]
    exact h3
  · show (calloc n c).2.string_literals = _
    rw [heq]
    exact h4

theorem FrameUp_copyZero (ds : List Nat) : FrameUp (copyZero ds) 0 := by
  have h := FrameUp_foldl (fun d => FrameUp_set d 0) ds
  exact h

theorem FrameUp_copyLoop (s tmp : Nat) (ds : List Nat) :
    FrameUp (copyLoop s tmp ds) (-1) := by
  have hfold := FrameUp_foldl
    (fun d => FrameUp_comp (FrameUp_set_ptr d) (FrameUp_emit ['+'])) ds
  have h := FrameUp_comp (FrameUp_comp (FrameUp_comp (FrameUp_comp (FrameUp_comp
    (FrameUp_comp (FrameUp_comp (FrameUp_comp
      (FrameUp_set_ptr s)
      (FrameUp_emit ['[', '-']))
      hfold)
      (FrameUp_set_ptr tmp))
      (FrameUp_emit ['+']))
      (FrameUp_set_ptr s))
      (FrameUp_emit [']']))
      (FrameUp_move_val tmp s))
      (FrameUp_dealloc 1)
  refine FrameUp_k h ?_
  rw [isizeCast_one]
  norm_num

theorem FrameUp_copy_val (s : Nat) (ds : List Nat) : FrameUp (copy_val s ds) 0 := by
  intro c
  obtain ⟨a1, a2, a3, a4⟩ := FrameUp_copyZero ds c
  obtain ⟨b1, b2, b3, b4⟩ := FrameUp_calloc 1 (copyZero ds c)
  have b1b : (calloc 1 (copyZero ds c)).2.stack_ptr = (copyZero ds c).stack_ptr + isizeCast 1 := b1
  have b2b : (calloc 1 (copyZero ds c)).2.vars = (copyZero ds c).vars := b2
  have b3b : (calloc 1 (copyZero ds c)).2.functions = (copyZero ds c).functions := b3
  have b4b : (calloc 1 (copyZero ds c)).2.string_literals = (copyZero ds c).string_literals := b4
  obtain ⟨c1, c2, c3, c4⟩ :=
    FrameUp_copyLoop s (calloc 1 (copyZero ds c)).1 ds (calloc 1 (copyZero ds c)).2
  have hcv : copy_val s ds c =
      copyLoop s (calloc 1 (copyZero ds c)).1 ds (calloc 1 (copyZero ds c)).2 := rfl
  rw [isizeCast_one] at b1b
  refine ⟨?_, ?_, ?_, ?_⟩
  · rw [hcv]
    omega
  · rw [hcv, c2, b2b, a2]
  · rw [hcv, c3, b3b, a3]
  · rw [hcv, c4, b4b, a4]

theorem FrameUp_addLoop (s d tmp : Nat) : FrameUp (addLoop s d tmp) (-1) := by
  have h := FrameUp_comp (FrameUp_comp (FrameUp_copy_val s [tmp])
    (FrameUp_dadd tmp d)) (FrameUp_dealloc 1)
  refine FrameUp_k h ?_
  rw [isizeCast_one]
  norm_num

theorem FrameUp_subLoop (s d tmp : Nat) : FrameUp (subLoop s d tmp) (-1) := by
  have h := FrameUp_comp (FrameUp_comp (FrameUp_copy_val s [tmp])
    (FrameUp_dsub tmp d)) (FrameUp_dealloc 1)
  refine FrameUp_k h ?_
  rw [isizeCast_one]
  norm_num

theorem FrameUp_add (s d : Nat) : FrameUp (add s d) 0 := by
  intro c
  obtain ⟨b1, b2, b3, b4⟩ := FrameUp_calloc 1 c
  have b1b : (calloc 1 c).2.stack_ptr = c.stack_ptr + isizeCast 1 := b1
  have b2b : (calloc 1 c).2.vars = c.vars := b2
  have b3b : (calloc 1 c).2.functions = c.functions := b3
  have b4b : (calloc 1 c).2.string_literals = c.string_literals := b4
  obtain ⟨c1, c2, c3, c4⟩ := FrameUp_addLoop s d (calloc 1 c).1 (calloc 1 c).2
  have hcv : add s d c = addLoop s d (calloc 1 c).1 (calloc 1 c).2 := rfl
  rw [isizeCast_one] at b1b
  refine ⟨?_, ?_, ?_, ?_⟩
  · rw [hcv]; omega
  · rw [hcv, c2, b2b]
  · rw [hcv, c3, b3b]
  · rw [hcv, c4, b4b]

theorem FrameUp_sub (s d : Nat) : FrameUp (sub s d) 0 := by
  intro c
  obtain ⟨b1, b2, b3, b4⟩ := FrameUp_calloc 1 c
  have b1b : (calloc 1 c).2.stack_ptr = c.stack_ptr + isizeCast 1 := b1
  have b2b : (calloc 1 c).2.vars = c.vars := b2
  have b3b : (calloc 1 c).2.functions = c.functions := b3
  have b4b : (calloc 1 c).2.string_literals = c.string_literals := b4
  obtain ⟨c1, c2, c3, c4⟩ := FrameUp_subLoop s d (calloc 1 c).1 (calloc 1 c).2
  have hcv : sub s d c = subLoop s d (calloc 1 c).1 (calloc 1 c).2 := rfl
  rw [isizeCast_one] at b1b
  refine ⟨?_, ?_, ?_, ?_⟩
  · rw [hcv]; omega
  · rw [hcv, c2, b2b]
  · rw [hcv, c3, b3b]
  · rw [hcv, c4, b4b]

theorem FrameUp_mulLoop (s d cnt : Nat) : FrameUp (mulLoop s d cnt) (-1) := by
  have h := FrameUp_comp (FrameUp_comp (FrameUp_comp (FrameUp_comp (FrameUp_comp
    (FrameUp_comp (FrameUp_comp
      (FrameUp_copy_val d [cnt])
      (FrameUp_set d 0))
      (FrameUp_set_ptr cnt))
      (FrameUp_emit ['[', '-']))
      (FrameUp_add s d))
      (FrameUp_set_ptr cnt))
      (FrameUp_emit [']']))
      (FrameUp_dealloc 1)
  refine FrameUp_k h ?_
  rw [isizeCast_one]
  norm_num

theorem FrameUp_mul (s d : Nat) : FrameUp (mul s d) 0 := by
  intro c
  obtain ⟨b1, b2, b3, b4⟩ := FrameUp_calloc 1 c
  have b1b : (calloc 1 c).2.stack_ptr = c.stack_ptr + isizeCast 1 := b1
  have b2b : (calloc 1 c).2.vars = c.vars := b2
  have b3b : (calloc 1 c).2.functions = c.functions := b3
  have b4b : (calloc 1 c).2.string_literals = c.string_literals := b4
  obtain ⟨c1, c2, c3, c4⟩ := FrameUp_mulLoop s d (calloc 1 c).1 (calloc 1 c).2
  have hcv : mul s d c = mulLoop s d (calloc 1 c).1 (calloc 1 c).2 := rfl
  rw [isizeCast_one] at b1b
  refine ⟨?_, ?_, ?_, ?_⟩
  · rw [hcv]; omega
  · rw [hcv, c2, b2b]
  · rw [hcv, c3, b3b]
  · rw [hcv, c4, b4b]


/-!
### Reduction and inversion rules for the `Cmp` monad
-/

theorem Cmp_bind_liftC {β : Type} (f : Compiler → Compiler) (g : Unit → Cmp β)
    (c : Compiler) : (liftC f >>= g) c = g () (f c) := rfl

theorem Cmp_bind_liftV {α β : Type} (f : Compiler → α × Compiler) (g : α → Cmp β)
    (c : Compiler) : (liftV f >>= g) c = g (f c).1 (f c).2 := rfl

theorem Cmp_bind_getC {β : Type} (g : Compiler → Cmp β) (c : Compiler) :
    (getC >>= g) c = g c c := rfl

theorem Cmp_bind_fatal {α β : Type} (msg : String) (g : α → Cmp β) (c : Compiler) :
    ((throwFatal msg : Cmp α) >>= g) c = (Except.error (CErr.fatal msg), c) := rfl

theorem Cmp_bind_err {α β : Type} (msg : String) (g : α → Cmp β) (c : Compiler) :
    ((throwErr msg : Cmp α) >>= g) c = (Except.error (CErr.err msg), c) := rfl

theorem Cmp_pure_eq {α : Type} (a : α) (c : Compiler) :
    (pure a : Cmp α) c = (Except.ok a, c) := rfl

theorem Cmp_bind_ok {α β : Type} {x : Cmp α} {f : α → Cmp β} {c c' : Compiler} {b : β}
    (h : (x >>= f) c = (Except.ok b, c')) :
    ∃ a c1, x c = (Except.ok a, c1) ∧ f a c1 = (Except.ok b, c') := by
  have hx : (x >>= f) c = match x c with
      | (Except.ok a, c1) => f a c1
      | (Except.error e, c1) => (Except.error e, c1) := rfl
  rw [hx] at h
  rcases he : x c with ⟨fst, c1⟩
  rw [he] at h
  cases fst with
  | ok a => exact ⟨a, c1, rfl, h⟩
  | error e => simp at h


theorem Cmp_bind_error {α β : Type} {x : Cmp α} {f : α → Cmp β} {c c1 : Compiler}
    {e : CErr} (hx : x c = (Except.error e, c1)) :
    (x >>= f) c = (Except.error e, c1) := by
  have hb : (x >>= f) c = match x c with
      | (Except.ok a, c1) => f a c1
      | (Except.error e, c1) => (Except.error e, c1) := rfl
  rw [hb, hx]

theorem FrameUp_facts {f : Compiler → Compiler} {k : Int} (h : FrameUp f k)
    (x y : Compiler) (he : f x = y) :
    y.stack_ptr = x.stack_ptr + k ∧ y.vars = x.vars ∧ y.functions = x.functions ∧
    y.string_literals = x.string_literals := he ▸ h x

theorem isizeCast_two : isizeCast 2 = 2 := isizeCast_eq (by norm_num)

/-- **C3** (corrected).  When `evaluate_expression expr dest` returns
successfully it returns `dest` itself, and the stack top and the three
maps are exactly as on entry.  The simulated head is *not* restored (see
the accompanying counterexample); the claim holds only for `top`. -/
theorem C3_evaluate_frame : (expr : Expr) → (dest : Nat) → (c c' : Compiler) → (r : Nat) →
    evaluate_expression expr dest c = (Except.ok r, c') →
    r = dest ∧ c'.stack_ptr = c.stack_ptr ∧ c'.vars = c.vars ∧
    c'.functions = c.functions ∧ c'.string_literals = c.string_literals
  | Expr.unary op rhs, dest, c, c', r, h => by
    simp [evaluate_expression, throwFatal] at h
  | Expr.binary l op r2, dest, c, c', r, h => by
    have ihl : ∀ (d : Nat) (cc cc' : Compiler) (rr : Nat),
        evaluate_expression l d cc = (Except.ok rr, cc') →
        rr = d ∧ cc'.stack_ptr = cc.stack_ptr ∧ cc'.vars = cc.vars ∧
        cc'.functions = cc.functions ∧ cc'.string_literals = cc.string_literals :=
      fun d cc cc' rr hh => C3_evaluate_frame l d cc cc' rr hh
    have ihr : ∀ (d : Nat) (cc cc' : Compiler) (rr : Nat),
        evaluate_expression r2 d cc = (Except.ok rr, cc') →
        rr = d ∧ cc'.stack_ptr = cc.stack_ptr ∧ cc'.vars = cc.vars ∧
        cc'.functions = cc.functions ∧ cc'.string_literals = cc.string_literals :=
      fun d cc cc' rr hh => C3_evaluate_frame r2 d cc cc' rr hh
    simp only [evaluate_expression] at h
    obtain ⟨i1, s1, h1, h⟩ := Cmp_bind_ok h
    obtain ⟨i2, s2, h2, h⟩ := Cmp_bind_ok h
    obtain ⟨a1, s3, h3, h⟩ := Cmp_bind_ok h
    obtain ⟨a2, s4, h4, h⟩ := Cmp_bind_ok h
    obtain ⟨u1, s5, h5, h⟩ := Cmp_bind_ok h
    obtain ⟨u2, s6, h6, h⟩ := Cmp_bind_ok h
    obtain ⟨u3, s7, h7, h⟩ := Cmp_bind_ok h
    simp only [Cmp_pure_eq, Prod.mk.injEq, Except.ok.injEq] at h
    obtain ⟨hres, hc'⟩ := h
    simp [liftV, Prod.ext_iff] at h1 h2
    simp [liftC, Prod.ext_iff] at h5 h7
    obtain ⟨F1s, F1v, F1f, F1g⟩ := FrameUp_facts (FrameUp_calloc 1) c s1 h1.2
    obtain ⟨F2s, F2v, F2f, F2g⟩ := FrameUp_facts (FrameUp_calloc 1) s1 s2 h2.2
    obtain ⟨_, F3s, F3v, F3f, F3g⟩ := ihl i1 s2 s3 a1 h3
    obtain ⟨_, F4s, F4v, F4f, F4g⟩ := ihr i2 s3 s4 a2 h4
    obtain ⟨F5s, F5v, F5f, F5g⟩ := FrameUp_facts (FrameUp_dadd i1 dest) s4 s5 h5
    obtain ⟨F7s, F7v, F7f, F7g⟩ := FrameUp_facts (FrameUp_dealloc 2) s6 s7 h7
    rw [isizeCast_one] at F1s F2s
    rw [isizeCast_two] at F7s
    subst hc'
    have hGood : ∀ g2 : Compiler → Compiler, FrameUp g2 0 → g2 s5 = s6 →
        r = dest ∧ s7.stack_ptr = c.stack_ptr ∧ s7.vars = c.vars ∧
        s7.functions = c.functions ∧ s7.string_literals = c.string_literals := by
      intro g2 hg2 hge
      obtain ⟨F6s, F6v, F6f, F6g⟩ := FrameUp_facts hg2 s5 s6 hge
      refine ⟨hres.symm, by omega, ?_, ?_, ?_⟩
      · rw [F7v, F6v, F5v, F4v, F3v, F2v, F1v]
      · rw [F7f, F6f, F5f, F4f, F3f, F2f, F1f]
      · rw [F7g, F6g, F5g, F4g, F3g, F2g, F1g]
    cases op with
    | addB =>
      simp [liftC, Prod.ext_iff] at h6
      exact hGood (dadd i2 dest) (FrameUp_dadd i2 dest) h6
    | subB =>
      simp [liftC, Prod.ext_iff] at h6
      exact hGood (dsub i2 dest) (FrameUp_dsub i2 dest) h6
    | mulB =>
      simp [liftC, Prod.ext_iff] at h6
      exact hGood (mul i2 dest) (FrameUp_mul i2 dest) h6
    | divB => simp [div, throwFatal] at h6
    | modB => simp [modulo, throwFatal] at h6
    | eqB => simp [eq, throwFatal] at h6
    | neqB => simp [neq, throwFatal] at h6
    | ltB => simp [lt, throwFatal] at h6
    | leqB => simp [leq, throwFatal] at h6
    | gtB => simp [gt, throwFatal] at h6
    | geqB => simp [geq, throwFatal] at h6
    | andB => simp [andOp, throwFatal] at h6
    | orB => simp [orOp, throwFatal] at h6
  | Expr.number n, dest, c, c', r, h => by
    simp only [evaluate_expression] at h
    obtain ⟨u, s1, h1, h⟩ := Cmp_bind_ok h
    simp [liftC, Prod.ext_iff] at h1
    simp only [Cmp_pure_eq, Prod.mk.injEq, Except.ok.injEq] at h
    obtain ⟨hr, hc⟩ := h
    obtain ⟨S, V, F, G⟩ := FrameUp_facts (FrameUp_set dest n) c s1 h1
    subst hc
    exact ⟨hr.symm, by omega, V, F, G⟩
  | Expr.strE s, dest, c, c', r, h => by
    simp [evaluate_expression, throwFatal] at h
  | Expr.identifier name, dest, c, c', r, h => by
    simp only [evaluate_expression, Cmp_bind_getC] at h
    rcases hl : lookupA c.vars name with _ | idx
    · rw [hl] at h
      simp [throwErr] at h
    · rw [hl] at h
      obtain ⟨u, s1, h1, h⟩ := Cmp_bind_ok h
      simp [liftC, Prod.ext_iff] at h1
      simp only [Cmp_pure_eq, Prod.mk.injEq, Except.ok.injEq] at h
      obtain ⟨hr, hc⟩ := h
      obtain ⟨S, V, F, G⟩ := FrameUp_facts (FrameUp_copy_val idx [dest]) c s1 h1
      subst hc
      exact ⟨hr.symm, by omega, V, F, G⟩
  | Expr.callE callee args, dest, c, c', r, h => by
    simp only [evaluate_expression] at h
    rcases hf : c.functions.find? (fun q => q.1 == callee) with _ | q
    · have hx : call callee [] c =
          (Except.error (CErr.err ("Function " ++ callee ++ " is not defined")), c) := by
        simp [call, hf]
      rw [Cmp_bind_error hx] at h
      simp at h
    · have hx : call callee [] c =
          (Except.error (CErr.fatal "not yet implemented: Function calls are not yet supported"), c) := by
        simp [call, hf]
      rw [Cmp_bind_error hx] at h
      simp at h
termination_by expr => sizeOf expr
decreasing_by all_goals (simp_wf; try omega)


/-- Instance of `C3_evaluate_frame`: the literal 3 into cell 0 from the
fresh state. -/
theorem C3_evaluate_frame_witness :
    0 = 0 ∧
    (⟨0, 0, ['[', '-', ']', '+', '+', '+'], [], [], []⟩ : Compiler).stack_ptr =
      Compiler.new.stack_ptr ∧
    (⟨0, 0, ['[', '-', ']', '+', '+', '+'], [], [], []⟩ : Compiler).vars =
      Compiler.new.vars ∧
    (⟨0, 0, ['[', '-', ']', '+', '+', '+'], [], [], []⟩ : Compiler).functions =
      Compiler.new.functions ∧
    (⟨0, 0, ['[', '-', ']', '+', '+', '+'], [], [], []⟩ : Compiler).string_literals =
      Compiler.new.string_literals :=
  C3_evaluate_frame (Expr.number 3) 0 Compiler.new
    ⟨0, 0, ['[', '-', ']', '+', '+', '+'], [], [], []⟩ 0 rfl

/-- **C3**, counterexample to the head part of the claim: evaluating the
literal 3 into cell 0 from a state whose simulated head is at 5 returns
successfully with the head at 0, not restored to 5. -/
theorem C3_head_not_restored :
    (evaluate_expression (Expr.number 3) 0 (⟨5, 1, [], [], [], []⟩ : Compiler)).1 =
      Except.ok 0 ∧
    (evaluate_expression (Expr.number 3) 0 (⟨5, 1, [], [], [], []⟩ : Compiler)).2.ptr ≠ 5 :=
  ⟨rfl, by decide⟩


theorem Cmp_bind_okE {α β : Type} {x : Cmp α} {f : α → Cmp β} {c c1 : Compiler} {a : α}
    (hx : x c = (Except.ok a, c1)) : (x >>= f) c = f a c1 := by
  have hb : (x >>= f) c = match x c with
      | (Except.ok a, c1) => f a c1
      | (Except.error e, c1) => (Except.error e, c1) := rfl
  rw [hb, hx]

theorem blockNil_id (cc : Compiler) :
    evaluate_statement (Statement.block []) cc = (Except.ok (), cc) := by
  simp only [evaluate_statement, blockF, compileF, literalPass, evalList, blockVarNames,
    List.filterMap_nil, deallocVarList]
  rfl

/-- What `if_statement` makes of `if x {}` when `x` is a bound variable:
the condition cell is allocated and filled, the skeleton is emitted, and
the cell is never deallocated. -/
theorem if_identifier_leak (name : String) (idx : Nat) (c : Compiler)
    (h : lookupA c.vars name = some idx) :
    if_statement (Expr.identifier name) (Statement.block []) none c =
      (Except.ok (), emit [']'] (set_ptr ((calloc 1 c).1)
        (emit ['[', '[', '-', ']'] (set_ptr ((calloc 1 c).1)
          (copy_val idx [(calloc 1 c).1] ((calloc 1 c).2)))))) := by
  have hev : evaluate_expression (Expr.identifier name) ((calloc 1 c).1) ((calloc 1 c).2) =
      (Except.ok ((calloc 1 c).1), copy_val idx [(calloc 1 c).1] ((calloc 1 c).2)) := by
    have hv : ((calloc 1 c).2).vars = c.vars := (FrameUp_facts (FrameUp_calloc 1) c _ rfl).2.1
    simp only [evaluate_expression, Cmp_bind_getC, hv, h]
    rfl
  simp only [if_statement, Cmp_bind_liftV]
  rw [Cmp_bind_okE hev]
  simp only [Cmp_bind_liftC]
  rw [Cmp_bind_okE (blockNil_id _)]
  simp only [Cmp_bind_liftC]
  rfl

/-- **C4** (corrected).  Lowering an `if` statement does not restore the
stack top: the freshly allocated condition cell is never deallocated, so
even for the simplest `if x {}` with `x` bound the top ends one above
its entry value.  (Expression lowering and the variable-definition body
do balance their allocations - see `C3_evaluate_frame` - but the claimed
invariant fails at `if_statement`.) -/
theorem C4_if_statement_unbalanced (name : String) (idx : Nat) (c : Compiler)
    (h : lookupA c.vars name = some idx) :
    ∃ c', if_statement (Expr.identifier name) (Statement.block []) none c =
      (Except.ok (), c') ∧ c'.stack_ptr = c.stack_ptr + 1 := by
  refine ⟨_, if_identifier_leak name idx c h, ?_⟩
  have hsp : (emit [']'] (set_ptr ((calloc 1 c).1)
      (emit ['[', '[', '-', ']'] (set_ptr ((calloc 1 c).1)
        (copy_val idx [(calloc 1 c).1] ((calloc 1 c).2)))))).stack_ptr =
      (copy_val idx [(calloc 1 c).1] ((calloc 1 c).2)).stack_ptr := rfl
  have B := (FrameUp_copy_val idx [(calloc 1 c).1] ((calloc 1 c).2)).1
  have A : ((calloc 1 c).2).stack_ptr = c.stack_ptr + isizeCast 1 := (FrameUp_calloc 1 c).1
  rw [isizeCast_one] at A
  omega

/-- Instance of `C4_if_statement_unbalanced`: `if x {}` with `x` bound
to cell 0 and top 1 ends with top 2. -/
theorem C4_if_statement_unbalanced_witness :
    ∃ c', if_statement (Expr.identifier "x") (Statement.block []) none
      (⟨0, 1, [], [("x", 0)], [], []⟩ : Compiler) = (Except.ok (), c') ∧
      c'.stack_ptr = 1 + 1 :=
  C4_if_statement_unbalanced "x" 0 ⟨0, 1, [], [("x", 0)], [], []⟩ (by decide)

/-- **C4**, counterexample to the claim as stated: for `if x {}` the
stack top is not restored to its entry value 1. -/
theorem C4_if_not_balanced :
    ¬ (∀ c' : Compiler, if_statement (Expr.identifier "x") (Statement.block []) none
        (⟨0, 1, [], [("x", 0)], [], []⟩ : Compiler) = (Except.ok (), c') →
        c'.stack_ptr = 1) := by
  intro H
  have heq := if_identifier_leak "x" 0 (⟨0, 1, [], [("x", 0)], [], []⟩ : Compiler) (by decide)
  have h2 := H _ heq
  have h3 : (emit [']'] (set_ptr ((calloc 1 (⟨0, 1, [], [("x", 0)], [], []⟩ : Compiler)).1)
      (emit ['[', '[', '-', ']'] (set_ptr ((calloc 1 (⟨0, 1, [], [("x", 0)], [], []⟩ : Compiler)).1)
        (copy_val 0 [(calloc 1 (⟨0, 1, [], [("x", 0)], [], []⟩ : Compiler)).1]
          ((calloc 1 (⟨0, 1, [], [("x", 0)], [], []⟩ : Compiler)).2)))))).stack_ptr = 2 := by
    decide
  exact absurd (h3.symm.trans h2) (by decide)


/-!
### The reference interpreter (src/interpreter.rs)

A small-step embedding of `Interpreter::step`: a growable byte memory, a
memory pointer, the instruction vector with an instruction pointer, the
stack of open-bracket positions, and the output.  `,` blocks on stdin
and is never emitted by the generator; it is modelled as a stuck state.
-/

structure Interp where
  memory : List Nat
  memory_ptr : Nat
  instructions : List Char
  instruction_ptr : Nat
  brackets : List Nat
  out : List Nat
deriving DecidableEq, Repr

/-- The forward scan of `[` on a zero cell: advance past instructions
until the matching `]`, returning its position.  The fuel is only a
recursion bound; the scan stops at the matching bracket or fails at the
end of the vector (the source panics there on the index). -/
def scanClose : List Char → Nat → Nat → Nat → Option Nat
  | _, _, _, 0 => none
  | instrs, ip, depth, fuel + 1 =>
    match instrs.get? (ip + 1) with
    | none => none
    | some ch =>
      if ch = ']' then
        if depth = 0 then some (ip + 1) else scanClose instrs (ip + 1) (depth - 1) fuel
      else if ch = '[' then scanClose instrs (ip + 1) (depth + 1) fuel
      else scanClose instrs (ip + 1) depth fuel

/-- One step of `Interpreter::step`; `none` models both the regular halt
(`instruction_ptr` at the end) and a panic. -/
def stepI (s : Interp) : Option Interp :=
  if s.instruction_ptr = s.instructions.length then none
  else
    match s.instructions.get? s.instruction_ptr with
    | none => none
    | some instr =>
      if instr = '>' then
        let mem := if s.memory.length - 1 = s.memory_ptr then s.memory ++ [0] else s.memory
        some { s with memory := mem, memory_ptr := s.memory_ptr + 1,
                      instruction_ptr := s.instruction_ptr + 1 }
      else if instr = '<' then
        if s.memory_ptr = 0 then none
        else some { s with memory_ptr := s.memory_ptr - 1,
                           instruction_ptr := s.instruction_ptr + 1 }
      else if instr = '+' then
        match s.memory.get? s.memory_ptr with
        | none => none
        | some v => some { s with memory := s.memory.set s.memory_ptr ((v + 1) % 256),
                                  instruction_ptr := s.instruction_ptr + 1 }
      else if instr = '-' then
        match s.memory.get? s.memory_ptr with
        | none => none
        | some v => some { s with memory := s.memory.set s.memory_ptr ((v + 255) % 256),
                                  instruction_ptr := s.instruction_ptr + 1 }
      else if instr = '.' then
        match s.memory.get? s.memory_ptr with
        | none => none
        | some v => some { s with out := s.out ++ [v],
                                  instruction_ptr := s.instruction_ptr + 1 }
      else if instr = ',' then none
      else if instr = '[' then
        match s.memory.get? s.memory_ptr with
        | none => none
        | some v =>
          if v ≠ 0 then
            some { s with brackets := s.brackets ++ [s.instruction_ptr],
                          instruction_ptr := s.instruction_ptr + 1 }
          else
            match scanClose s.instructions s.instruction_ptr 0 (s.instructions.length + 1) with
            | none => none
            | some j => some { s with instruction_ptr := j + 1 }
      else if instr = ']' then
        match s.memory.get? s.memory_ptr with
        | none => none
        | some v =>
          if v ≠ 0 then
            match s.brackets.getLast? with
            | none => none
            | some j => some { s with instruction_ptr := j + 1 }
          else
            some { s with brackets := s.brackets.dropLast,
                          instruction_ptr := s.instruction_ptr + 1 }
      else
        some { s with instruction_ptr := s.instruction_ptr + 2 }

/-- Iterate `stepI`, stopping early when the machine halts or sticks. -/
def stepN : Nat → Interp → Interp
  | 0, s => s
  | n + 1, s =>
    match stepI s with
    | none => s
    | some s2 => stepN n s2

/-- The surface program of the claim:
`let x = 1; if x { print("Y"); } else { print("N"); }`. -/
def P1 : List Statement :=
  [Statement.variableDefinition "x" (some (Expr.number 1)),
   Statement.ifS (Expr.identifier "x")
     (Statement.block [Statement.print (Expr.strE "Y")])
     (some (Statement.block [Statement.print (Expr.strE "N")]))]


set_option maxRecDepth 100000 in
/-- **C1** (code bug).  Compiling
`let x = 1; if x { print("Y"); } else { print("N"); }` succeeds, but
running the emitted opcodes on the zero-initialized byte-cell machine
does not write exactly `Y`: the first output byte is 89 (`Y`, so the
then-branch runs), yet the machine keeps emitting - the second byte is
178.  After the then-branch the lowering decrements the already-cleared
condition cell to 255 (`-` of `-]+[`), so the closing `]` loops instead
of exiting: both branches' code is live and the run never terminates. -/
theorem C1_if_else_miscompiled :
    (compileAst P1).1 = Except.ok () ∧
    (stepN 850 ⟨[0], 0, (compileAst P1).2.output, 0, [], []⟩).out.take 2 = [89, 178] ∧
    (stepN 850 ⟨[0], 0, (compileAst P1).2.output, 0, [], []⟩).out ≠ [89] := by
  have hcode : (compileAst P1).2.output = ("[-]>[-][-]+<[-]>[-<+>][-][-]>[-]<<[->+>+<<][-]>>[-<<+>>]<[[-]>>+++++++++[-<+++++++++>]<++++++++>[-]<[.>]<<-]+[>>>>++++++++[-<++++++++>]<++++++++++++++>[-]<[.>]]").toList := by
    simp only [compileAst, P1, compileF, literalPass, evalList, evaluate_statement, blockF,
      deallocVarList, blockVarNames, List.filterMap_cons, List.filterMap_nil, if_statement]
    rfl
  have hok : (compileAst P1).1 = Except.ok () := by
    simp only [compileAst, P1, compileF, literalPass, evalList, evaluate_statement, blockF,
      deallocVarList, blockVarNames, List.filterMap_cons, List.filterMap_nil, if_statement]
    rfl
  rw [hcode]
  have h2 : (stepN 850 ⟨[0], 0, ("[-]>[-][-]+<[-]>[-<+>][-][-]>[-]<<[->+>+<<][-]>>[-<<+>>]<[[-]>>+++++++++[-<+++++++++>]<++++++++>[-]<[.>]<<-]+[>>>>++++++++[-<++++++++>]<++++++++++++++>[-]<[.>]]").toList, 0, [], []⟩).out.take 2 = [89, 178] := by
    rfl
  refine ⟨hok, h2, ?_⟩
  intro heq
  rw [heq] at h2
  simp at h2

end Brang











